import Mathlib

/-!
# Verification of the `parse_json` repository (lexer + recursive-descent JSON parser)

Shallow embedding of `lex_json.c` / `parse_json.c`:

* tokens and token lists (`token_t`, `token_list`) become `TokenT` and `List TokenT`;
  the `NULL` pointer at list end becomes `[]`;
* character buffers become `List Char`; the `'\0'` terminator becomes list end;
* `double` payloads are modelled as exact rationals accumulated by the same
  multiply-add recurrences the C code uses;
* the parser's out-parameter `token_list *end` is modelled explicitly by a
  `Cell := Option (List TokenT)` value, `none` meaning "not yet written"
  (an uninitialized local in C);
* the mutually recursive parser is made total by a fuel argument; fuel `0`
  yields the same observable failure result the C functions produce on their
  failure paths, and the fuel chosen for the top-level entry point is proved
  sufficient for every stream generated by the grammar.
-/

/-! ## Token data model (`lex_json.h`): `token_type_t` plus the generic payload -/

/-- `token_type_t` together with the `void *value` payload of `token_t`:
string tokens own a string, number tokens own a boxed double (modelled exactly
as a rational), all other tokens carry `NULL`. -/
inductive TokenT where
  | bracketArrayOpen
  | bracketArrayClose
  | bracketObjectOpen
  | bracketObjectClose
  | punctuatorColon
  | punctuatorComma
  | string (s : String)
  | number (v : ℚ)
  | kwTrue
  | kwFalse
  | kwNull
deriving DecidableEq, Repr

/-! ## Lexer (`lex_json.c`) -/

/-- ASCII `isspace`, the six standard white-space characters. -/
def isspaceC (c : Char) : Bool :=
  c = ' ' ∨ c = '\t' ∨ c = '\n' ∨ c = '\x0b' ∨ c = '\x0c' ∨ c = '\r'

/-- `'0' <= c && c <= '9'`. -/
def isdigitC (c : Char) : Bool :=
  '0' ≤ c ∧ c ≤ '9'

/-- ASCII `isalnum`: a letter or a digit. -/
def isalnumC (c : Char) : Bool :=
  isdigitC c ∨ ('a' ≤ c ∧ c ≤ 'z') ∨ ('A' ≤ c ∧ c ≤ 'Z')

/-- Numeric value of a digit character, `*s - '0'`. -/
def digitVal (c : Char) : ℚ :=
  ((c.toNat - '0'.toNat : ℕ) : ℚ)

/-- The `while (*s >= '0' && *s <= '9') { num *= 10; num += *s - '0'; s++; }`
loop of `read_number`. -/
def digitsAcc (num : ℚ) : List Char → ℚ × List Char
  | [] => (num, [])
  | c :: s =>
    if isdigitC c then digitsAcc (num * 10 + digitVal c) s
    else (num, c :: s)

/-- The fractional-part loop of `read_number`:
`d /= 10; num += (*s - '0') * d`. -/
def fracAcc (num : ℚ) (d : ℚ) : List Char → ℚ × List Char
  | [] => (num, [])
  | c :: s =>
    if isdigitC c then fracAcc (num + digitVal c * (d / 10)) (d / 10) s
    else (num, c :: s)

/-- The exponent-digit loop of `read_number`:
`exponent *= 10; exponent += *s - '0'`. -/
def expAcc (e : ℕ) : List Char → ℕ × List Char
  | [] => (e, [])
  | c :: s =>
    if isdigitC c then expAcc (e * 10 + (c.toNat - '0'.toNat)) s
    else (e, c :: s)

/-- Integer part of `read_number` after the optional sign: the first digit is
consumed by a branch restricted to `'1'..'9'` (`first digit cannot be zero`),
every following digit — including leading zeros, which that branch skips but
the general loop then accepts — by the digit loop. -/
def rn_int (s1 : List Char) : ℚ × List Char :=
  match s1 with
  | c :: s =>
    if '1' ≤ c ∧ c ≤ '9' then digitsAcc (digitVal c) s
    else digitsAcc 0 (c :: s)
  | [] => (0, [])

/-- Fractional part of `read_number`: consumed only after a `'.'`. -/
def rn_frac (p : ℚ × List Char) : ℚ × List Char :=
  match p.2 with
  | '.' :: s => fracAcc p.1 1 s
  | _ => p

/-- Exponent part of `read_number`: after `'e'`/`'E'`, an optional sign and a
digit loop, scaling the accumulated value by `pow(10, exponent)`. -/
def rn_exp (p : ℚ × List Char) : ℚ × List Char :=
  match p.2 with
  | c :: s =>
    if c = 'e' ∨ c = 'E' then
      let expSignAndRest : Bool × List Char :=
        match s with
        | '-' :: s2 => (true, s2)
        | '+' :: s2 => (false, s2)
        | _ => (false, s)
      let ex := expAcc 0 expSignAndRest.2
      let exponent : ℤ := if expSignAndRest.1 then -(ex.1 : ℤ) else (ex.1 : ℤ)
      (p.1 * (10 : ℚ) ^ exponent, ex.2)
    else p
  | [] => p

/-- `read_number` from `lex_json.c`: optional minus, integer part, optional
fractional part, sign applied (`if (sign == 1) num = -num;` precedes the
exponent in the source), optional exponent.  Returns the accumulated number
and the first uninterpreted suffix; the suffix equals the input exactly when
nothing was consumed. -/
def read_number (str : List Char) : ℚ × List Char :=
  match str with
  | '-' :: s =>
    let p := rn_frac (rn_int s)
    rn_exp (-p.1, p.2)
  | _ =>
    let p := rn_frac (rn_int str)
    rn_exp p

/-- The string-scanning loop of `read_next_token`: starting after the opening
quote, consume characters until a closing quote or end of buffer, where a
backslash immediately followed by a quote is consumed as two characters
without terminating the string.  Returns the consumed body, the suffix after
the string (after the closing quote when one was found), and whether a closing
quote was found. -/
def scanStr : List Char → List Char × List Char × Bool
  | [] => ([], [], false)
  | '"' :: rest => ([], rest, true)
  | '\\' :: '"' :: rest2 =>
    let r := scanStr rest2
    ('\\' :: '"' :: r.1, r.2.1, r.2.2)
  | c :: rest =>
    let r := scanStr rest
    (c :: r.1, r.2.1, r.2.2)

/-- One keyword test of `read_next_token`: `strncmp(str, kw, k) == 0` and the
character after the keyword is neither alphanumeric nor `'_'` (at buffer end
that character is `'\0'`, which passes the boundary test). -/
def kwMatch (kw : List Char) (t : TokenT) (s : List Char) : Option (TokenT × List Char) :=
  if kw.isPrefixOf s then
    match s.drop kw.length with
    | [] => some (t, [])
    | c :: rest => if ¬ isalnumC c ∧ c ≠ '_' then some (t, c :: rest) else none
  else none

/-- The keyword table `{true, false, null}` scanned in order. -/
def matchKeyword (s : List Char) : Option (TokenT × List Char) :=
  match kwMatch ('t' :: 'r' :: 'u' :: 'e' :: []) TokenT.kwTrue s with
  | some r => some r
  | none =>
    match kwMatch ('f' :: 'a' :: 'l' :: 's' :: 'e' :: []) TokenT.kwFalse s with
    | some r => some r
    | none => kwMatch ('n' :: 'u' :: 'l' :: 'l' :: []) TokenT.kwNull s

/-- Result of `read_next_token`: `eof` models the `NULL` return (buffer
exhausted), `fail` models returning the saved original pointer (no progress,
a lexing error), and `tok` carries the interpreted token, the suffix at the
first uninterpreted character, and whether the unterminated-string diagnostic
was printed to `stderr` while producing this token. -/
inductive LexRes where
  | eof
  | fail
  | tok (t : TokenT) (rest : List Char) (diag : Bool)
deriving DecidableEq, Repr

/-- `skip white spaces` prefix loop of `read_next_token`. -/
def skipWs : List Char → List Char
  | [] => []
  | c :: rest => if isspaceC c then skipWs rest else c :: rest

/-- `read_next_token` from `lex_json.c`.  In priority order: skip white space;
end of buffer; single-character structural tokens; keywords with boundary
check; strings (unterminated strings print a diagnostic, keep scanning
disabled at the buffer end, and the stored content is `n - 2` characters of
the scanned range, which drops the final scanned character because no closing
quote was counted); numbers via `read_number`, accepted exactly when
`read_number` consumed at least one character; otherwise the saved pointer is
returned (failure). -/
def read_next_token (str : List Char) : LexRes :=
  let s := skipWs str
  match s with
  | [] => LexRes.eof
  | c :: rest =>
    if c = ',' then LexRes.tok TokenT.punctuatorComma rest false
    else if c = ':' then LexRes.tok TokenT.punctuatorColon rest false
    else if c = '[' then LexRes.tok TokenT.bracketArrayOpen rest false
    else if c = ']' then LexRes.tok TokenT.bracketArrayClose rest false
    else if c = '{' then LexRes.tok TokenT.bracketObjectOpen rest false
    else if c = '}' then LexRes.tok TokenT.bracketObjectClose rest false
    else
      match matchKeyword s with
      | some tr => LexRes.tok tr.1 tr.2 false
      | none =>
        if c = '"' then
          let r := scanStr rest
          let content : List Char := if r.2.2 then r.1 else r.1.dropLast
          LexRes.tok (TokenT.string (String.mk content)) r.2.1 (!r.2.2)
        else
          let nr := read_number s
          if nr.2 = s then LexRes.fail
          else LexRes.tok (TokenT.number nr.1) nr.2 false

/-- The per-line token loop of `token_list_read_from_file`, fuelled by the
line length (each produced token consumes at least one character, so the fuel
never runs out on the lines actually passed in).  Accumulates the tokens of
one line in order, together with the disjunction of their diagnostic flags;
returns `none` when `read_next_token` makes no progress (`end == buf`). -/
def tokenizeLineF : ℕ → List TokenT → Bool → List Char → Option (List TokenT × Bool)
  | 0, _, _, _ => none
  | f + 1, acc, diag, buf =>
    match read_next_token buf with
    | LexRes.eof => some (acc, diag)
    | LexRes.fail => none
    | LexRes.tok t rest d => tokenizeLineF f (acc ++ [t]) (diag || d) rest

/-- Tokenize one `fgets` line. -/
def tokenizeLine (line : List Char) : Option (List TokenT × Bool) :=
  tokenizeLineF (line.length + 1) [] false line

/-- `token_list_read_from_file`: the input is the list of lines `fgets`
produces; lines are tokenized in order and the tokens appended to one list;
as soon as a line fails to tokenize, every token collected so far is deleted
and `NULL` (here `none`) is returned.  Line numbers and the `stderr`
diagnostic channel are not part of the returned value and are dropped. -/
def token_list_read_from_file (lines : List (List Char)) : Option (List TokenT) :=
  match lines with
  | [] => some []
  | l :: ls =>
    match tokenizeLine l with
    | none => none
    | some td =>
      match token_list_read_from_file ls with
      | none => none
      | some ts => some (td.1 ++ ts)

/-! ## Syntax tree data model (`parse_json.h`) -/

/-- `syntax_tree_elem`: the `syntax_type_t` tag together with the node's
payload and children.  Scalar variants carry their payload, structural
variants carry the `NULL`-terminated children array as a list, leaf keyword
variants carry neither — exactly the shapes `parse_json.c` constructs. -/
inductive SyntaxTree where
  | string (s : String)
  | number (v : ℚ)
  | pair (cs : List SyntaxTree)
  | elements (cs : List SyntaxTree)
  | members (cs : List SyntaxTree)
  | array (cs : List SyntaxTree)
  | object (cs : List SyntaxTree)
  | strue
  | sfalse
  | snull
deriving Repr

/-- The `children` field: the child list of a structural node, empty (`NULL`)
for scalar and keyword leaves. -/
def SyntaxTree.children : SyntaxTree → List SyntaxTree
  | .pair cs => cs
  | .elements cs => cs
  | .members cs => cs
  | .array cs => cs
  | .object cs => cs
  | _ => []

/-! ## Parser (`parse_json.c`)

Each C rule function has signature
`syntax_tree rule(token_list tl, token_list *end)`.  A rule is modelled as a
function from the cursor `tl` and the current contents of the out-cell `*end`
to the returned tree (or `none`) and the new cell contents.  `Cell := none`
models a cell that has not been written (an uninitialized local variable of a
caller).  The composite rules write `*end = tl` as soon as they have checked
`tl != NULL`, and overwrite it with the suffix cursor on success; the leaf
rules write only on success. -/

/-- The out-parameter `token_list *end`: `none` = never written. -/
def Cell : Type := Option (List TokenT)

instance : DecidableEq Cell := by
  unfold Cell
  infer_instance

/-- `parse_string`: on a string token, succeed consuming it and write the
cell; otherwise fail leaving the cell untouched. -/
def parse_stringC : List TokenT → Cell → Option SyntaxTree × Cell
  | TokenT.string s :: rest, _ => (some (SyntaxTree.string s), some rest)
  | _, cell => (none, cell)

/-- `parse_number`: on a number token, succeed consuming it (the boxed double
is cloned by `number_clone`); otherwise fail leaving the cell untouched. -/
def parse_numberC : List TokenT → Cell → Option SyntaxTree × Cell
  | TokenT.number v :: rest, _ => (some (SyntaxTree.number v), some rest)
  | _, cell => (none, cell)

/-- `parse_true`. -/
def parse_trueC : List TokenT → Cell → Option SyntaxTree × Cell
  | TokenT.kwTrue :: rest, _ => (some SyntaxTree.strue, some rest)
  | _, cell => (none, cell)

/-- `parse_false`. -/
def parse_falseC : List TokenT → Cell → Option SyntaxTree × Cell
  | TokenT.kwFalse :: rest, _ => (some SyntaxTree.sfalse, some rest)
  | _, cell => (none, cell)

/-- `parse_null`. -/
def parse_nullC : List TokenT → Cell → Option SyntaxTree × Cell
  | TokenT.kwNull :: rest, _ => (some SyntaxTree.snull, some rest)
  | _, cell => (none, cell)

/-- Reading a local out-cell (`t = e` in `parse_array`/`parse_object`, or
`*end = e` at the end of the list rules).  In every execution of the C code
in which the cell has been written this returns its contents; the `none`
case corresponds to reading an uninitialized variable in C (undefined
behaviour, reachable exactly when the sub-rule was called on the `NULL`
cursor — see `parse_arrayRun` below) and is resolved here as the `NULL`
cursor, which coincides with the cursor the sub-rule was called on in the
only reachable case. -/
def readCellD (e : Cell) : List TokenT :=
  match e with
  | some v => v
  | none => []

/-!
The mutually recursive rule family, made total by a fuel argument: every call
inside the `mutual` block decreases the fuel by one, so the recursion is
structural and the definitions reduce by `rfl`/`decide`.  Fuel `0` returns
the observable failure result every C rule produces on a failure path (cell
written to `some tl` exactly when `tl` is non-`NULL`), so running out of fuel
is indistinguishable from a grammar mismatch; `parse_json` is given fuel
`2 * length + 2`, proved sufficient for every grammar-generated stream in
`G_parse` below.
-/

mutual

/-- `parse_value`: the `pfs` function-pointer table tried in source order —
object, array, true, false, null, string, number — all sharing one out-cell. -/
def parse_valueC : ℕ → List TokenT → Cell → Option SyntaxTree × Cell
  | 0, tl, cell => (none, match tl with | [] => cell | _ => some tl)
  | f + 1, tl, cell =>
    match parse_objectC f tl cell with
    | (some st, c1) => (some st, c1)
    | (none, c1) =>
      match parse_arrayC f tl c1 with
      | (some st, c2) => (some st, c2)
      | (none, c2) =>
        match parse_trueC tl c2 with
        | (some st, c3) => (some st, c3)
        | (none, c3) =>
          match parse_falseC tl c3 with
          | (some st, c4) => (some st, c4)
          | (none, c4) =>
            match parse_nullC tl c4 with
            | (some st, c5) => (some st, c5)
            | (none, c5) =>
              match parse_stringC tl c5 with
              | (some st, c6) => (some st, c6)
              | (none, c6) => parse_numberC tl c6

/-- `parse_pair`: `string ":" value`, building
`Pair [String (strclone key), value]`; `*end = tl` is written before the
token checks, and overwritten from the local `e` only after the value
succeeded. -/
def parse_pairC : ℕ → List TokenT → Cell → Option SyntaxTree × Cell
  | 0, tl, cell => (none, match tl with | [] => cell | _ => some tl)
  | _ + 1, [], cell => (none, cell)
  | f + 1, TokenT.string fieldname :: rest, _ =>
    match rest with
    | TokenT.punctuatorColon :: rest2 =>
      match parse_valueC f rest2 none with
      | (none, _) => (none, some (TokenT.string fieldname :: rest))
      | (some value, e) =>
        (some (SyntaxTree.pair [SyntaxTree.string fieldname, value]), some (readCellD e))
    | _ => (none, some (TokenT.string fieldname :: rest))
  | _ + 1, tk :: rest, _ => (none, some (tk :: rest))

/-- The `while (t != NULL && get_token(t)->type == TOKEN_PUNCTUATOR_COMMA)`
loop of `parse_elements`: consume the comma, parse one value into the shared
local `e`, append it, continue at `t = e`.  Returns the accumulated children
and the final contents of `e`, or `none` when a value after a comma failed
(the partially built `Elements` node is deleted). -/
def elemLoopC : ℕ → List SyntaxTree → List TokenT → Cell → Option (List SyntaxTree × Cell)
  | 0, _, _, _ => none
  | f + 1, acc, t, e =>
    match t with
    | TokenT.punctuatorComma :: t2 =>
      match parse_valueC f t2 e with
      | (none, _) => none
      | (some v, e2) => elemLoopC f (acc ++ [v]) (readCellD e2) e2
    | _ => some (acc, e)

/-- `parse_elements`: `value ("," value)*` collected under an `Elements`
node; on failure the cell keeps the entry write `*end = tl`, on success it is
overwritten with the final `e`. -/
def parse_elementsC : ℕ → List TokenT → Cell → Option SyntaxTree × Cell
  | 0, tl, cell => (none, match tl with | [] => cell | _ => some tl)
  | _ + 1, [], cell => (none, cell)
  | f + 1, tl, _ =>
    match parse_valueC f tl none with
    | (none, _) => (none, some tl)
    | (some v, e0) =>
      match elemLoopC f [v] (readCellD e0) e0 with
      | none => (none, some tl)
      | some r => (some (SyntaxTree.elements r.1), some (readCellD r.2))

/-- The comma loop of `parse_members`, appending `Pair` children. -/
def memLoopC : ℕ → List SyntaxTree → List TokenT → Cell → Option (List SyntaxTree × Cell)
  | 0, _, _, _ => none
  | f + 1, acc, t, e =>
    match t with
    | TokenT.punctuatorComma :: t2 =>
      match parse_pairC f t2 e with
      | (none, _) => none
      | (some p, e2) => memLoopC f (acc ++ [p]) (readCellD e2) e2
    | _ => some (acc, e)

/-- `parse_members`: `pair ("," pair)*` collected under a `Members` node. -/
def parse_membersC : ℕ → List TokenT → Cell → Option SyntaxTree × Cell
  | 0, tl, cell => (none, match tl with | [] => cell | _ => some tl)
  | _ + 1, [], cell => (none, cell)
  | f + 1, tl, _ =>
    match parse_pairC f tl none with
    | (none, _) => (none, some tl)
    | (some p, e0) =>
      match memLoopC f [p] (readCellD e0) e0 with
      | none => (none, some tl)
      | some r => (some (SyntaxTree.members r.1), some (readCellD r.2))

/-- `parse_array`: `"[" [elements] "]"`.  After the opening bracket the local
`e` is fresh (`none`); `parse_elements` may fail, in which case the code
still executes `t = e` and tests the token at `t` against `']'` — the read of
`e` is modelled by `readCellD` (see `parse_arrayRun` for the uninitialized
case).  On success the children of the `Elements` wrapper are re-parented
onto a fresh `Array` node and the wrapper shell is discarded. -/
def parse_arrayC : ℕ → List TokenT → Cell → Option SyntaxTree × Cell
  | 0, tl, cell => (none, match tl with | [] => cell | _ => some tl)
  | _ + 1, [], cell => (none, cell)
  | f + 1, tl@(tk :: ts), _ =>
    if tk = TokenT.bracketArrayOpen then
      match parse_elementsC f ts none with
      | (elements, e) =>
        match readCellD e with
        | TokenT.bracketArrayClose :: t2 =>
          (some (SyntaxTree.array (match elements with
            | some el => el.children
            | none => [])), some t2)
        | _ => (none, some tl)
    else (none, some tl)

/-- `parse_object`: `"{" [members] "}"`, re-parenting the `Members` children
onto an `Object` node. -/
def parse_objectC : ℕ → List TokenT → Cell → Option SyntaxTree × Cell
  | 0, tl, cell => (none, match tl with | [] => cell | _ => some tl)
  | _ + 1, [], cell => (none, cell)
  | f + 1, tl@(tk :: ts), _ =>
    if tk = TokenT.bracketObjectOpen then
      match parse_membersC f ts none with
      | (members, e) =>
        match readCellD e with
        | TokenT.bracketObjectClose :: t2 =>
          (some (SyntaxTree.object (match members with
            | some m => m.children
            | none => [])), some t2)
        | _ => (none, some tl)
    else (none, some tl)

end

/-- `parse_json`: write `*end = tl`, fail on the empty stream, otherwise try
`parse_array` then `parse_object` with the shared out-cell; the result is the
tree (or `none`) together with the first unconsumed token cursor. -/
def parse_json (tl : List TokenT) : Option SyntaxTree × List TokenT :=
  match tl with
  | [] => (none, tl)
  | _ =>
    match parse_arrayC (2 * tl.length + 2) tl (some tl) with
    | (some s, e) => (some s, readCellD e)
    | (none, e1) =>
      match parse_objectC (2 * tl.length + 2) tl e1 with
      | (some s, e) => (some s, readCellD e)
      | (none, e2) => (none, readCellD e2)

/-! ### Instrumented `parse_array` for the uninitialized-read path

`parse_array` declares `token_list e;` without initializer, calls
`parse_elements(t, &e)`, and then unconditionally executes `t = e;` and
`get_token(t)`.  `parse_elements` returns without writing `*end` exactly when
its argument is `NULL`.  `parse_arrayRun` mirrors `parse_array` but makes the
read of `e` explicit: it returns `Except.error ()` precisely when the C code
reads the uninitialized `e`. -/
def parse_arrayRun (f : ℕ) (tl : List TokenT) (c0 : Cell) :
    Except Unit (Option SyntaxTree × Cell) :=
  match tl with
  | [] => Except.ok (none, c0)
  | tk :: ts =>
    if tk = TokenT.bracketArrayOpen then
      match parse_elementsC f ts none with
      | (elements, e) =>
        match e with
        | none => Except.error ()
        | some t =>
          match t with
          | TokenT.bracketArrayClose :: t2 =>
            Except.ok (some (SyntaxTree.array (match elements with
              | some el => el.children
              | none => [])), some t2)
          | _ => Except.ok (none, some (tk :: ts))
    else Except.ok (none, some (tk :: ts))

/-! ## Tree utilities (`parse_json.c`) -/

/-- `field->data != NULL && strcmp(field->data, fieldname) == 0` for the key
child of a pair: only `String` nodes carry a string payload (`Number`
payloads are boxed doubles and never compare equal to a field name in the
trees the parser builds, where every key child is a `String`). -/
def keyString : SyntaxTree → Option String
  | SyntaxTree.string s => some s
  | _ => none

/-- The scanning loop of `syntax_tree_get_field`: for each child, read
`children[0]` (key) and `children[1]` (value) and compare the key's payload
with the field name.  The C code indexes `children[0]`/`children[1]` without
a bounds check; a child with fewer than two children is undefined behaviour
in C, unreachable for parser-produced objects, and skipped here. -/
def getFieldScan : List SyntaxTree → String → Option SyntaxTree
  | [], _ => none
  | c :: cs, fieldname =>
    match c.children with
    | field :: value :: _ =>
      if keyString field = some fieldname then some value
      else getFieldScan cs fieldname
    | _ => getFieldScan cs fieldname

/-- `syntax_tree_get_field`: `NULL` or non-`Object` input gives `NULL`,
otherwise the children are scanned in order and the value sub-tree of the
first matching pair is returned by reference. -/
def syntax_tree_get_field : Option SyntaxTree → String → Option SyntaxTree
  | none, _ => none
  | some t, fieldname =>
    match t with
    | SyntaxTree.object cs => getFieldScan cs fieldname
    | _ => none

/-! ## Well-formedness of parser output (for the `Elements`/`Members` and
`Pair`/`Object` shape invariants) -/

/-- A node of a value production: anything except the `Pair` helper and the
`Elements`/`Members` wrapper variants. -/
def isValueNode : SyntaxTree → Bool
  | SyntaxTree.pair _ => false
  | SyntaxTree.elements _ => false
  | SyntaxTree.members _ => false
  | _ => true

mutual

/-- Shape invariant of the trees the parser hands to its callers: no
`Elements`/`Members` wrapper anywhere, every `Pair` has exactly the two
children `String` key then value node, and every child of an `Object` is a
`Pair`. -/
def goodTree : SyntaxTree → Bool
  | SyntaxTree.elements _ => false
  | SyntaxTree.members _ => false
  | SyntaxTree.pair cs =>
    match cs with
    | [SyntaxTree.string _, v] => isValueNode v && goodTree v
    | _ => false
  | SyntaxTree.array cs => goodValueList cs
  | SyntaxTree.object cs => goodPairList cs
  | _ => true

/-- Every member of the list is a well-formed value node. -/
def goodValueList : List SyntaxTree → Bool
  | [] => true
  | t :: ts => isValueNode t && goodTree t && goodValueList ts

/-- Every member of the list is a well-formed `Pair`. -/
def goodPairList : List SyntaxTree → Bool
  | [] => true
  | t :: ts =>
    (match t with | SyntaxTree.pair _ => true | _ => false) && goodTree t && goodPairList ts

end

/-! ## Heap model of payload ownership (`syntax_tree_copy` / `syntax_tree_delete`)

To talk about which `malloc` blocks a tree owns, a tree is annotated with the
address of each node's `data` payload (`none` for the `NULL` payload of
structural and keyword nodes).  `syntax_tree_copy` allocates a fresh node per
source node via `syntax_tree_node_create(root->type, root->data)` — the
`data` pointer is passed through unchanged, so the annotation of the copy is
the annotation of the original.  `syntax_tree_delete` recursively deletes all
children and then executes `free(root->data)`, so the multiset of payload
addresses freed by deleting a tree is exactly `dataAddrs`. -/

/-- `syntax_type_t`. -/
inductive SType where
  | tString | tNumber | tPair | tElements | tMembers | tArray | tObject
  | tTrue | tFalse | tNull
deriving DecidableEq, Repr

/-- A syntax tree node with its payload address: `type`, the address of the
`data` allocation (`none` = `NULL`), and the children. -/
inductive HTree where
  | mk (type : SType) (dataAddr : Option ℕ) (children : List HTree)

/-- The `dataAddr` field. -/
def HTree.dataAddr : HTree → Option ℕ
  | HTree.mk _ d _ => d

mutual

/-- `syntax_tree_copy`: a new node is created by
`syntax_tree_node_create(root->type, root->data)` — same type, same `data`
pointer — and the children are copied recursively in sibling order and
appended with `syntax_tree_add_child`. -/
def syntax_tree_copy : HTree → HTree
  | HTree.mk ty d cs => HTree.mk ty d (copyChildren cs)

/-- The `first_child`/`next_sibling` loop of `syntax_tree_copy`. -/
def copyChildren : List HTree → List HTree
  | [] => []
  | c :: cs => syntax_tree_copy c :: copyChildren cs

end

mutual

/-- The payload addresses `syntax_tree_delete` frees for a tree: post-order
over the children, then the node's own `data` (children first, as in
`syntax_tree_delete`; `free(NULL)` frees nothing). -/
def dataAddrs : HTree → List ℕ
  | HTree.mk _ d cs => dataAddrsList cs ++ d.toList

/-- `dataAddrs` over a child list. -/
def dataAddrsList : List HTree → List ℕ
  | [] => []
  | c :: cs => dataAddrs c ++ dataAddrsList cs

end

/-! ## The grammar of section 4.3

`value = object | array | string | number | true | false | null`,
`object = "{" [members] "}"`, `array = "[" [elements] "]"`,
`members = pair ("," pair)*`, `elements = value ("," value)*`,
`pair = string ":" value`, over token streams.  The starred comma lists are
represented by a head production (`elements`/`members`) and a tail production
(`etail`/`mtail`) for the `("," item)*` part. -/

/-- The nonterminals of the grammar (tails of comma lists separated out). -/
inductive Rule where
  | value | object | array | members | elements | pair | mtail | etail

/-- `G r ts`: the token stream `ts` is generated by nonterminal `r`. -/
inductive G : Rule → List TokenT → Prop where
  | value_object {ts} : G Rule.object ts → G Rule.value ts
  | value_array {ts} : G Rule.array ts → G Rule.value ts
  | value_string (s : String) : G Rule.value [TokenT.string s]
  | value_number (q : ℚ) : G Rule.value [TokenT.number q]
  | value_true : G Rule.value [TokenT.kwTrue]
  | value_false : G Rule.value [TokenT.kwFalse]
  | value_null : G Rule.value [TokenT.kwNull]
  | object_empty : G Rule.object [TokenT.bracketObjectOpen, TokenT.bracketObjectClose]
  | object_members {ts} : G Rule.members ts →
      G Rule.object (TokenT.bracketObjectOpen :: ts ++ [TokenT.bracketObjectClose])
  | array_empty : G Rule.array [TokenT.bracketArrayOpen, TokenT.bracketArrayClose]
  | array_elements {ts} : G Rule.elements ts →
      G Rule.array (TokenT.bracketArrayOpen :: ts ++ [TokenT.bracketArrayClose])
  | members_mk {ts ts'} : G Rule.pair ts → G Rule.mtail ts' → G Rule.members (ts ++ ts')
  | elements_mk {ts ts'} : G Rule.value ts → G Rule.etail ts' → G Rule.elements (ts ++ ts')
  | pair_mk (s : String) {ts} : G Rule.value ts →
      G Rule.pair (TokenT.string s :: TokenT.punctuatorColon :: ts)
  | mtail_nil : G Rule.mtail []
  | mtail_cons {ts ts'} : G Rule.pair ts → G Rule.mtail ts' →
      G Rule.mtail (TokenT.punctuatorComma :: ts ++ ts')
  | etail_nil : G Rule.etail []
  | etail_cons {ts ts'} : G Rule.value ts → G Rule.etail ts' →
      G Rule.etail (TokenT.punctuatorComma :: ts ++ ts')

/-- Modelled from the spec (§4.4 `get_field`), for comparison with
`syntax_tree_get_field`: a linear scan over the `Pair` children returning the
value sub-tree of the first pair whose key string equals the field name. -/
def get_field_spec (cs : List SyntaxTree) (key : String) : Option SyntaxTree :=
  match cs with
  | [] => none
  | SyntaxTree.pair [SyntaxTree.string k, v] :: cs' =>
    if k = key then some v else get_field_spec cs' key
  | _ :: cs' => get_field_spec cs' key

/-- Induction motive for the grammar-success proof (claim C4): what it means
for each rule function to accept every stream its nonterminal generates,
with the fuel bounds threaded through the mutual recursion.  The list rules
additionally require that the following context does not begin with a comma
(inside `array`/`object` it begins with the closing bracket), since the
comma loop is greedy. -/
def ParserOK : Rule → List TokenT → Prop
  | Rule.value, ts => ∀ f, 2 * ts.length ≤ f → ∀ rest cell,
      ∃ t, parse_valueC f (ts ++ rest) cell = (some t, some rest)
  | Rule.array, ts => ∀ f, 2 * ts.length - 1 ≤ f → ∀ rest cell,
      ∃ t, parse_arrayC f (ts ++ rest) cell = (some t, some rest)
  | Rule.object, ts => ∀ f, 2 * ts.length - 1 ≤ f → ∀ rest cell,
      ∃ t, parse_objectC f (ts ++ rest) cell = (some t, some rest)
  | Rule.pair, ts => ∀ f, 2 * ts.length ≤ f → ∀ rest cell,
      ∃ t, parse_pairC f (ts ++ rest) cell = (some t, some rest)
  | Rule.elements, ts => ∀ f, 2 * ts.length + 2 ≤ f → ∀ rest cell,
      rest.head? ≠ some TokenT.punctuatorComma →
      ∃ t, parse_elementsC f (ts ++ rest) cell = (some t, some rest)
  | Rule.members, ts => ∀ f, 2 * ts.length + 2 ≤ f → ∀ rest cell,
      rest.head? ≠ some TokenT.punctuatorComma →
      ∃ t, parse_membersC f (ts ++ rest) cell = (some t, some rest)
  | Rule.etail, ts => ∀ f, 2 * ts.length + 1 ≤ f → ∀ rest,
      rest.head? ≠ some TokenT.punctuatorComma → ∀ acc,
      ∃ cs, elemLoopC f acc (ts ++ rest) (some (ts ++ rest)) = some (acc ++ cs, some rest)
  | Rule.mtail, ts => ∀ f, 2 * ts.length + 1 ≤ f → ∀ rest,
      rest.head? ≠ some TokenT.punctuatorComma → ∀ acc,
      ∃ cs, memLoopC f acc (ts ++ rest) (some (ts ++ rest)) = some (acc ++ cs, some rest)

/-! # Theorems -/

/-! ## Lexer: consumption bounds of the number reader -/

theorem digitsAcc_len : ∀ (s : List Char) (n : ℚ), ((digitsAcc n s).2).length ≤ s.length
  | [], _ => Nat.le_refl _
  | c :: s, n => by
    simp only [digitsAcc]
    split
    · exact Nat.le_trans (digitsAcc_len s _) (Nat.le_succ _)
    · exact Nat.le_refl _

theorem fracAcc_len : ∀ (s : List Char) (n d : ℚ), ((fracAcc n d s).2).length ≤ s.length
  | [], _, _ => Nat.le_refl _
  | c :: s, n, d => by
    simp only [fracAcc]
    split
    · exact Nat.le_trans (fracAcc_len s _ _) (Nat.le_succ _)
    · exact Nat.le_refl _

theorem expAcc_len : ∀ (s : List Char) (e : ℕ), ((expAcc e s).2).length ≤ s.length
  | [], _ => Nat.le_refl _
  | c :: s, e => by
    simp only [expAcc]
    split
    · exact Nat.le_trans (expAcc_len s _) (Nat.le_succ _)
    · exact Nat.le_refl _

theorem rn_int_len (s : List Char) : ((rn_int s).2).length ≤ s.length := by
  cases s with
  | nil => exact Nat.le_refl _
  | cons c s =>
    simp only [rn_int]
    split
    · exact Nat.le_trans (digitsAcc_len s _) (Nat.le_succ _)
    · exact digitsAcc_len (c :: s) 0

theorem rn_frac_len (p : ℚ × List Char) : ((rn_frac p).2).length ≤ p.2.length := by
  unfold rn_frac
  split
  · next s heq => rw [heq]; exact Nat.le_trans (fracAcc_len s _ _) (Nat.le_succ _)
  · exact Nat.le_refl _

theorem rn_exp_len (p : ℚ × List Char) : ((rn_exp p).2).length ≤ p.2.length := by
  unfold rn_exp
  split
  · next c s heq =>
    split
    · rw [heq]
      refine Nat.le_trans (expAcc_len _ _) (Nat.le_trans ?_ (Nat.le_succ s.length))
      split
      all_goals simp
    · exact Nat.le_refl _
  · exact Nat.le_refl _

theorem rn_int_not_digit (c : Char) (cs' : List Char) (h : isdigitC c = false) :
    rn_int (c :: cs') = (0, c :: cs') := by
  have h19 : ¬('1' ≤ c ∧ c ≤ '9') := by
    intro hc
    have h0 : '0' ≤ c := le_trans (by decide) hc.1
    simp [isdigitC, h0, hc.2] at h
  simp only [rn_int, if_neg h19, digitsAcc, h]
  simp

theorem rn_frac_ne_dot (p : ℚ × List Char) (c : Char) (cs' : List Char)
    (hp : p.2 = c :: cs') (h : c ≠ '.') : rn_frac p = p := by
  unfold rn_frac
  split
  · next s heq => rw [hp] at heq; injection heq with h1 _; exact absurd h1 h
  · rfl

theorem rn_exp_ne_e (p : ℚ × List Char) (c : Char) (cs' : List Char)
    (hp : p.2 = c :: cs') (h1 : c ≠ 'e') (h2 : c ≠ 'E') : rn_exp p = p := by
  unfold rn_exp
  split
  · next c2 s heq =>
    rw [hp] at heq
    injection heq with hc _
    rw [if_neg]
    intro hor
    rcases hor with h | h
    · exact h1 (hc ▸ h)
    · exact h2 (hc ▸ h)
  · rfl

theorem digitsAcc_cons_digit (c : Char) (s : List Char) (n : ℚ) (h : isdigitC c = true) :
    ((digitsAcc n (c :: s)).2).length ≤ s.length := by
  simp only [digitsAcc, if_pos h]
  exact digitsAcc_len s _

theorem rn_int_digit (c : Char) (s : List Char) (h : isdigitC c = true) :
    ((rn_int (c :: s)).2).length ≤ s.length := by
  simp only [rn_int]
  split
  · exact digitsAcc_len s _
  · exact digitsAcc_cons_digit c s 0 h

/-- `read_number` consumes at least one character whenever the first
character is a minus, a dot, an exponent letter, or a digit. -/
theorem read_number_progress (c : Char) (cs' : List Char)
    (h : c = '-' ∨ c = '.' ∨ c = 'e' ∨ c = 'E' ∨ isdigitC c = true) :
    ((read_number (c :: cs')).2).length < (c :: cs').length := by
  simp only [List.length_cons]
  rcases h with rfl | rfl | rfl | rfl | hd
  · -- leading minus: everything after it only shrinks the suffix
    show ((read_number ('-' :: cs')).2).length < cs'.length + 1
    have : read_number ('-' :: cs') =
        rn_exp (-(rn_frac (rn_int cs')).1, (rn_frac (rn_int cs')).2) := rfl
    rw [this]
    have h1 := rn_exp_len (-(rn_frac (rn_int cs')).1, (rn_frac (rn_int cs')).2)
    have h2 := rn_frac_len (rn_int cs')
    have h3 := rn_int_len cs'
    simp only at h1
    omega
  · -- leading dot: the fractional branch consumes the dot
    have hne : read_number ('.' :: cs') = rn_exp (rn_frac (rn_int ('.' :: cs'))) := rfl
    rw [hne, rn_int_not_digit '.' cs' (by decide)]
    have hfrac : rn_frac ((0 : ℚ), '.' :: cs') = fracAcc 0 1 cs' := rfl
    rw [hfrac]
    have h1 := rn_exp_len (fracAcc 0 1 cs')
    have h2 := fracAcc_len cs' 0 1
    omega
  · -- leading exponent letter
    have hne : read_number ('e' :: cs') = rn_exp (rn_frac (rn_int ('e' :: cs'))) := rfl
    rw [hne, rn_int_not_digit 'e' cs' (by decide),
      rn_frac_ne_dot ((0 : ℚ), 'e' :: cs') 'e' cs' rfl (by decide)]
    simp only [rn_exp, if_pos (by decide : 'e' = 'e' ∨ 'e' = 'E')]
    refine Nat.lt_of_le_of_lt (expAcc_len _ _) (Nat.lt_of_le_of_lt ?_ (Nat.lt_succ_self _))
    split
    all_goals simp
  · have hne : read_number ('E' :: cs') = rn_exp (rn_frac (rn_int ('E' :: cs'))) := rfl
    rw [hne, rn_int_not_digit 'E' cs' (by decide),
      rn_frac_ne_dot ((0 : ℚ), 'E' :: cs') 'E' cs' rfl (by decide)]
    simp only [rn_exp, if_pos (by decide : 'E' = 'e' ∨ 'E' = 'E')]
    refine Nat.lt_of_le_of_lt (expAcc_len _ _) (Nat.lt_of_le_of_lt ?_ (Nat.lt_succ_self _))
    split
    all_goals simp
  · -- leading digit
    have hcm : c ≠ '-' := by
      intro hc; rw [hc] at hd; exact absurd hd (by decide)
    have hne : read_number (c :: cs') = rn_exp (rn_frac (rn_int (c :: cs'))) := by
      unfold read_number
      split
      · next s heq => injection heq with h1 _; exact absurd h1 hcm
      · rfl
    rw [hne]
    have h1 := rn_exp_len (rn_frac (rn_int (c :: cs')))
    have h2 := rn_frac_len (rn_int (c :: cs'))
    have h3 := rn_int_digit c cs' hd
    omega

/-- `read_number` consumes nothing — and leaves the cursor exactly where it
was — when the first character is none of minus, dot, exponent letter,
digit. -/
theorem read_number_no_progress (c : Char) (cs' : List Char)
    (h : ¬(c = '-' ∨ c = '.' ∨ c = 'e' ∨ c = 'E' ∨ isdigitC c = true)) :
    read_number (c :: cs') = (0, c :: cs') := by
  push_neg at h
  obtain ⟨h1, h2, h3, h4, h5⟩ := h
  have hne : read_number (c :: cs') = rn_exp (rn_frac (rn_int (c :: cs'))) := by
    unfold read_number
    split
    · next s heq => injection heq with hh _; exact absurd hh h1
    · rfl
  rw [hne, rn_int_not_digit c cs' (by simpa using h5),
    rn_frac_ne_dot ((0 : ℚ), c :: cs') c cs' rfl h2,
    rn_exp_ne_e ((0 : ℚ), c :: cs') c cs' rfl h3 h4]

/-- The character classes at which `read_number` makes progress. -/
theorem read_number_progress_iff (cs : List Char) :
    (read_number cs).2 ≠ cs ↔
      ∃ c cs', cs = c :: cs' ∧
        (c = '-' ∨ c = '.' ∨ c = 'e' ∨ c = 'E' ∨ isdigitC c = true) := by
  constructor
  · intro hne
    cases cs with
    | nil => exact absurd rfl hne
    | cons c cs' =>
      by_cases h : c = '-' ∨ c = '.' ∨ c = 'e' ∨ c = 'E' ∨ isdigitC c = true
      · exact ⟨c, cs', rfl, h⟩
      · rw [read_number_no_progress c cs' h] at hne
        exact absurd rfl hne
  · rintro ⟨c, cs', rfl, h⟩
    intro heq
    have := read_number_progress c cs' h
    rw [heq] at this
    exact Nat.lt_irrefl _ this

/-! ## Claim C3 -/

/-- C3 counterexample: the claim says a lone `'-'` is *not* lexed as a Number
token, but `read_number` consumes the minus sign even with no digit after it,
so the lexer turns the sole character `'-'` into a Number token of value `0`
(`-0.0` in C). -/
theorem c3_counterexample :
    read_next_token ['-'] = LexRes.tok (TokenT.number 0) [] false := by
  decide

/-- C3 (amended): at a position where the earlier lexing rules do not apply
(not white space, not a structural character, not a keyword, not a string
opening), the lexer produces a Number token iff the first character is `'-'`,
`'.'`, `'e'`, `'E'`, or a digit — the shape actually consumed is
`[-] digits* [. digits*] [(e|E) [+|-] digits*]`, so a lone minus, a leading
dot, a bare exponent letter and leading zeros are all accepted as Number
tokens, unlike the spec's `0 | nonzero-first` grammar. -/
theorem c3_amended (c : Char) (cs' : List Char)
    (hsp : isspaceC c = false)
    (hst : c ∉ ([',', ':', '[', ']', '{', '}', '"'] : List Char))
    (hkw : matchKeyword (c :: cs') = none) :
    (∃ q rest, read_next_token (c :: cs') = LexRes.tok (TokenT.number q) rest false) ↔
      (c = '-' ∨ c = '.' ∨ c = 'e' ∨ c = 'E' ∨ isdigitC c = true) := by
  simp only [List.mem_cons, List.not_mem_nil, or_false, not_or] at hst
  obtain ⟨h1, h2, h3, h4, h5, h6, h7⟩ := hst
  have hred : read_next_token (c :: cs') =
      (if (read_number (c :: cs')).2 = c :: cs' then LexRes.fail
       else LexRes.tok (TokenT.number (read_number (c :: cs')).1)
         (read_number (c :: cs')).2 false) := by
    simp [read_next_token, skipWs, hsp, hkw, h1, h2, h3, h4, h5, h6, h7]
  by_cases hp : (read_number (c :: cs')).2 = c :: cs'
  · rw [hred, if_pos hp]
    constructor
    · rintro ⟨q, rest, h⟩
      exact absurd h (by simp)
    · intro hset
      have := read_number_progress c cs' hset
      rw [hp] at this
      exact absurd this (Nat.lt_irrefl _)
  · rw [hred, if_neg hp]
    constructor
    · intro _
      obtain ⟨c0, cs0, heq, hset⟩ := (read_number_progress_iff (c :: cs')).mp hp
      injection heq with hc _
      rw [hc]
      exact hset
    · intro _
      exact ⟨_, _, rfl⟩

/-- Witness for `c3_amended` at the concrete input `"-"`. -/
theorem c3_amended_witness :
    ∃ q rest, read_next_token ['-'] = LexRes.tok (TokenT.number q) rest false :=
  (c3_amended '-' [] (by decide) (by decide) (by decide)).mpr (Or.inl rfl)

/-! ## Lexer: string-scanning lemmas -/

theorem scanStr_cons_other (c : Char) (rest : List Char) (h1 : c ≠ '"') (h2 : c ≠ '\\') :
    scanStr (c :: rest) = (c :: (scanStr rest).1, (scanStr rest).2.1, (scanStr rest).2.2) := by
  rw [scanStr.eq_def]
  split
  · simp_all
  · simp_all
  · simp_all
  · next _ _ heq =>
    injection heq with hc hr
    subst hc
    subst hr
    rfl

theorem scanStr_cons_backslash (rest : List Char) (h : rest.head? ≠ some '"') :
    scanStr ('\\' :: rest) =
      ('\\' :: (scanStr rest).1, (scanStr rest).2.1, (scanStr rest).2.2) := by
  rw [scanStr.eq_def]
  split
  · simp_all
  · simp_all
  · next heq =>
    injection heq with _ hr
    simp [hr] at h
  · next _ _ heq =>
    injection heq with hc hr
    subst hc
    subst hr
    rfl

/-- A backslash-quote pair is carried into the scanned body whole, without
terminating the scan. -/
theorem scanStr_escaped_quote (rest2 : List Char) :
    scanStr ('\\' :: '"' :: rest2) =
      ('\\' :: '"' :: (scanStr rest2).1, (scanStr rest2).2.1, (scanStr rest2).2.2) := rfl

/-- Characters that are neither quotes nor backslashes pass through the
string scan unchanged. -/
theorem scanStr_clean_passthrough (pre : List Char) (h1 : '"' ∉ pre) (h2 : '\\' ∉ pre) :
    ∀ tail, scanStr (pre ++ tail) =
      (pre ++ (scanStr tail).1, (scanStr tail).2.1, (scanStr tail).2.2) := by
  induction pre with
  | nil => intro tail; simp
  | cons c pre ih =>
    intro tail
    simp only [List.mem_cons, not_or] at h1 h2
    rw [List.cons_append,
      scanStr_cons_other c (pre ++ tail) (fun hc => h1.1 hc.symm) (fun hc => h2.1 hc.symm),
      ih h1.2 h2.2 tail]
    simp

/-- A quote-free buffer is scanned to its end without finding a terminator. -/
theorem scanStr_no_quote (body : List Char) (h : '"' ∉ body) :
    scanStr body = (body, [], false) := by
  induction body with
  | nil => rfl
  | cons c body ih =>
    simp only [List.mem_cons, not_or] at h
    by_cases hb : c = '\\'
    · subst hb
      have hh : body.head? ≠ some '"' := by
        cases body with
        | nil => simp
        | cons c2 b2 =>
          simp only [List.mem_cons, not_or] at h
          simp only [List.head?_cons, ne_eq, Option.some.injEq]
          exact fun hq => h.2.1 hq.symm
      rw [scanStr_cons_backslash body hh, ih h.2]
    · rw [scanStr_cons_other c body (fun hc => h.1 hc.symm) hb, ih h.2]

theorem matchKeyword_quote (rest : List Char) : matchKeyword ('"' :: rest) = none := by
  simp [matchKeyword, kwMatch, List.isPrefixOf]

/-- Evaluation of `read_next_token` at an opening quote: the token is a
string whose content is the scanned body when a closing quote was found and
the scanned body minus its last character otherwise (`n - 2` with `end` left
on the terminator), and the diagnostic fires exactly in the unterminated
case. -/
theorem read_next_token_quote (rest : List Char) :
    read_next_token ('"' :: rest) =
      LexRes.tok
        (TokenT.string (String.mk
          (if (scanStr rest).2.2 then (scanStr rest).1 else (scanStr rest).1.dropLast)))
        (scanStr rest).2.1 (!(scanStr rest).2.2) := by
  simp [read_next_token, skipWs, isspaceC, matchKeyword_quote]

/-! ## Claim C9 -/

/-- C9: inside a string literal, a backslash immediately followed by a quote
does not terminate the string, and both characters ride into the token's
content unmodified: for any surrounding content free of quotes and
backslashes, lexing `"pre\"post"` yields one String token whose content is
`pre\"post` verbatim, with the whole literal consumed. -/
theorem c9_escaped_quote_in_string (pre post : List Char)
    (hp1 : '"' ∉ pre) (hp2 : '\\' ∉ pre) (hq1 : '"' ∉ post) (hq2 : '\\' ∉ post) :
    read_next_token ('"' :: ((pre ++ '\\' :: '"' :: post) ++ ['"'])) =
      LexRes.tok (TokenT.string (String.mk (pre ++ '\\' :: '"' :: post))) [] false := by
  have hscan : scanStr ((pre ++ '\\' :: '"' :: post) ++ ['"']) =
      (pre ++ '\\' :: '"' :: post, [], true) := by
    rw [List.append_assoc]
    rw [scanStr_clean_passthrough pre hp1 hp2]
    simp only [List.cons_append]
    rw [scanStr_escaped_quote]
    rw [scanStr_clean_passthrough post hq1 hq2]
    simp [scanStr]
  rw [read_next_token_quote, hscan]
  simp

/-- Witness for `c9_escaped_quote_in_string`: the spec's example `a\"b`. -/
theorem c9_witness :
    read_next_token ('"' :: ((['a'] ++ '\\' :: '"' :: ['b']) ++ ['"'])) =
      LexRes.tok (TokenT.string (String.mk (['a'] ++ '\\' :: '"' :: ['b']))) [] false :=
  c9_escaped_quote_in_string ['a'] ['b'] (by decide) (by decide) (by decide) (by decide)

/-! ## Claim C10 -/

/-- C10 counterexample: on the line `"abc` (opened, never closed, no trailing
newline) the claim predicts a String token whose content is the whole
remainder `abc` after the opening quote; the code computes the content length
as `n - 2` where `n` counts only the opening quote plus the scanned
remainder, so the token it actually produces holds `ab` — the remainder minus
its final character. -/
theorem c10_counterexample :
    read_next_token ['"', 'a', 'b', 'c'] =
        LexRes.tok (TokenT.string "ab") [] true ∧
      ("ab" : String) ≠ "abc" := by
  constructor
  · decide
  · decide

/-- C10 (amended): an unterminated string literal is non-fatal: the lexer
prints a diagnostic (`diag = true`), produces a String token holding the
scanned remainder of the line after the opening quote *minus its final
character* (when the buffer ends with the newline `fgets` kept, this is
exactly the line text after the quote), leaves the cursor at the end of the
line, and tokenization of the line completes normally. -/
theorem c10_unterminated_string (body : List Char) (_hne : body ≠ []) (hq : '"' ∉ body) :
    read_next_token ('"' :: body) =
        LexRes.tok (TokenT.string (String.mk body.dropLast)) [] true ∧
      tokenizeLine ('"' :: body) =
        some ([TokenT.string (String.mk body.dropLast)], true) := by
  have hrnt : read_next_token ('"' :: body) =
      LexRes.tok (TokenT.string (String.mk body.dropLast)) [] true := by
    rw [read_next_token_quote, scanStr_no_quote body hq]
    simp
  refine ⟨hrnt, ?_⟩
  simp only [tokenizeLine, List.length_cons, tokenizeLineF, hrnt]
  simp [tokenizeLineF, read_next_token, skipWs]

/-- Witness for `c10_unterminated_string` at the concrete line `"abc`. -/
theorem c10_witness :
    read_next_token ('"' :: ['a', 'b', 'c']) =
        LexRes.tok (TokenT.string (String.mk (['a', 'b', 'c']).dropLast)) [] true ∧
      tokenizeLine ('"' :: ['a', 'b', 'c']) =
        some ([TokenT.string (String.mk (['a', 'b', 'c']).dropLast)], true) :=
  c10_unterminated_string ['a', 'b', 'c'] (by decide) (by decide)

/-! ## Claim C6 -/

/-- C6: if any line of the input contains a character sequence the lexer
cannot classify (so that tokenization of that line fails), then reading the
token list of the whole input yields total absence — the tokens collected
from other lines are discarded and no partial stream is returned. -/
theorem c6_lex_failure_total_absence (lines : List (List Char)) (l : List Char)
    (hmem : l ∈ lines) (hfail : tokenizeLine l = none) :
    token_list_read_from_file lines = none := by
  induction lines with
  | nil => cases hmem
  | cons l0 ls ih =>
    rcases List.mem_cons.mp hmem with rfl | hmem'
    · simp [token_list_read_from_file, hfail]
    · simp only [token_list_read_from_file, ih hmem']
      cases htl : tokenizeLine l0 <;> simp

/-- Witness for `c6_lex_failure_total_absence`: the single line `[1,@`
contains the unclassifiable character `'@'`. -/
theorem c6_witness :
    token_list_read_from_file [['[', '1', ',', '@']] = none :=
  c6_lex_failure_total_absence [['[', '1', ',', '@']] ['[', '1', ',', '@']
    (by simp) (by decide)

/-! ## Claim C1 -/

mutual

theorem dataAddrs_copy : ∀ t : HTree, dataAddrs (syntax_tree_copy t) = dataAddrs t
  | HTree.mk ty d cs => by
    simp only [syntax_tree_copy, dataAddrs, dataAddrsList_copy cs]

theorem dataAddrsList_copy :
    ∀ cs : List HTree, dataAddrsList (copyChildren cs) = dataAddrsList cs
  | [] => rfl
  | c :: cs => by
    simp only [copyChildren, dataAddrsList, dataAddrs_copy c, dataAddrsList_copy cs]

end

/-- C1 (the code violates the claim): `syntax_tree_copy` passes `root->data`
unchanged into `syntax_tree_node_create`, so the copy owns *exactly the same*
payload allocations as the original — nothing is freshly allocated.  In
particular the copy of a `String` node aliases the original's string storage
(mutating one mutates the other), and since `syntax_tree_delete` frees
`root->data` of every node, deleting both the copy and the original frees
every payload address twice. -/
theorem c1_copy_shares_payloads :
    (∀ t : HTree, dataAddrs (syntax_tree_copy t) = dataAddrs t) ∧
      (syntax_tree_copy (HTree.mk SType.tString (some 0) [])).dataAddr = some 0 :=
  ⟨dataAddrs_copy, rfl⟩

/-! ## Claim C2 -/

/-- C2 (the code violates the claim): on the token stream consisting of the
single token `'['`, `parse_array` advances past the bracket to the `NULL`
cursor, `parse_elements(NULL, &e)` returns `NULL` *without writing* `e`, and
the subsequent statements `t = e; get_token(t)` read the uninitialized local
`e` — `parse_arrayRun`, which mirrors `parse_array` with the write-tracking
out-cell, reaches the error state that marks exactly this read. -/
theorem c2_uninitialized_read_on_lone_bracket :
    parse_arrayRun 1 [TokenT.bracketArrayOpen] none = Except.error () := rfl

/-! ## Claim C8 -/

theorem goodTree_pair_shape (cs0 : List SyntaxTree) (h : goodTree (SyntaxTree.pair cs0) = true) :
    ∃ k v, cs0 = [SyntaxTree.string k, v] ∧ isValueNode v = true ∧ goodTree v = true := by
  unfold goodTree at h
  split at h
  · next k v => exact ⟨k, v, rfl, by simpa using h⟩
  · cases h

/-- C8: `syntax_tree_get_field` scans an `Object` node's children in order
and returns the stored value sub-tree of the first pair whose key equals the
field name (it refines the spec's linear-scan description on every
well-formed child list), returns absence on `NULL` and on non-`Object`
nodes, and on the object parsed from the token stream of `{"a":1,"b":2}` it
returns the `Number 2` node for key `"b"` and absence for key `"c"`. -/
theorem c8_get_field :
    (∀ cs key, goodPairList cs = true →
      syntax_tree_get_field (some (SyntaxTree.object cs)) key = get_field_spec cs key) ∧
    (∀ t key, (∀ cs, t ≠ SyntaxTree.object cs) →
      syntax_tree_get_field (some t) key = none) ∧
    (∀ key, syntax_tree_get_field none key = none) ∧
    (∀ ts, token_list_read_from_file [['\x7b', '"', 'a', '"', ':', '1', ',', '"', 'b', '"', ':', '2', '\x7d']] = some ts →
      syntax_tree_get_field (parse_json ts).1 "b" = some (SyntaxTree.number 2) ∧
      syntax_tree_get_field (parse_json ts).1 "c" = none) := by
  refine ⟨?_, ?_, ?_, ?_⟩
  · intro cs key hgood
    show getFieldScan cs key = get_field_spec cs key
    induction cs with
    | nil => rfl
    | cons c cs ih =>
      simp only [goodPairList, Bool.and_eq_true] at hgood
      obtain ⟨⟨hpair, hgt⟩, htail⟩ := hgood
      have hcp : ∃ cs0, c = SyntaxTree.pair cs0 := by
        cases c <;> simp_all
      obtain ⟨cs0, rfl⟩ := hcp
      obtain ⟨k, v, rfl, _, _⟩ := goodTree_pair_shape cs0 hgt
      by_cases hk : k = key
      · simp [getFieldScan, get_field_spec, keyString, SyntaxTree.children, hk]
      · simp [getFieldScan, get_field_spec, keyString, SyntaxTree.children, hk, ih htail]
  · intro t key h
    cases t <;> first
      | rfl
      | exact absurd rfl (h _)
  · intro key
    rfl
  · intro ts h
    have hts : token_list_read_from_file [['\x7b', '"', 'a', '"', ':', '1', ',', '"', 'b', '"', ':', '2', '\x7d']] =
        some [TokenT.bracketObjectOpen, TokenT.string "a", TokenT.punctuatorColon,
          TokenT.number 1, TokenT.punctuatorComma, TokenT.string "b",
          TokenT.punctuatorColon, TokenT.number 2, TokenT.bracketObjectClose] := by
      decide
    rw [hts] at h
    injection h with h
    subst h
    exact ⟨rfl, rfl⟩

/-- Witness for `c8_get_field` at concrete inputs. -/
theorem c8_witness :
    syntax_tree_get_field
        (some (SyntaxTree.object [SyntaxTree.pair [SyntaxTree.string "a", SyntaxTree.number 1]]))
        "a" =
      get_field_spec [SyntaxTree.pair [SyntaxTree.string "a", SyntaxTree.number 1]] "a" ∧
    (syntax_tree_get_field
        (parse_json [TokenT.bracketObjectOpen, TokenT.string "a", TokenT.punctuatorColon,
          TokenT.number 1, TokenT.punctuatorComma, TokenT.string "b",
          TokenT.punctuatorColon, TokenT.number 2, TokenT.bracketObjectClose]).1 "b" =
        some (SyntaxTree.number 2) ∧
      syntax_tree_get_field
        (parse_json [TokenT.bracketObjectOpen, TokenT.string "a", TokenT.punctuatorColon,
          TokenT.number 1, TokenT.punctuatorComma, TokenT.string "b",
          TokenT.punctuatorColon, TokenT.number 2, TokenT.bracketObjectClose]).1 "c" =
        none) :=
  ⟨c8_get_field.1 _ _ (by decide), c8_get_field.2.2.2 _ (by decide)⟩

/-! ## Failure leaves the entry cursor in the out-cell

The composite rules write `*end = tl` on entry (for a non-`NULL` cursor) and
never overwrite it on a failure path; the leaf rules never write on failure.
-/

theorem parse_trueC_fail_cell (tl : List TokenT) (cell c : Cell)
    (h : parse_trueC tl cell = (none, c)) : c = cell := by
  unfold parse_trueC at h
  split at h
  · cases h
  · cases h
    rfl

theorem parse_falseC_fail_cell (tl : List TokenT) (cell c : Cell)
    (h : parse_falseC tl cell = (none, c)) : c = cell := by
  unfold parse_falseC at h
  split at h
  · cases h
  · cases h
    rfl

theorem parse_nullC_fail_cell (tl : List TokenT) (cell c : Cell)
    (h : parse_nullC tl cell = (none, c)) : c = cell := by
  unfold parse_nullC at h
  split at h
  · cases h
  · cases h
    rfl

theorem parse_stringC_fail_cell (tl : List TokenT) (cell c : Cell)
    (h : parse_stringC tl cell = (none, c)) : c = cell := by
  unfold parse_stringC at h
  split at h
  · cases h
  · cases h
    rfl

theorem parse_numberC_fail_cell (tl : List TokenT) (cell c : Cell)
    (h : parse_numberC tl cell = (none, c)) : c = cell := by
  unfold parse_numberC at h
  split at h
  · cases h
  · cases h
    rfl

theorem parse_arrayC_fail_cell (f : ℕ) (tl : List TokenT) (cell c : Cell) (hne : tl ≠ [])
    (h : parse_arrayC f tl cell = (none, c)) : c = some tl := by
  cases f with
  | zero =>
    cases tl with
    | nil => exact absurd rfl hne
    | cons tk ts =>
      cases h
      rfl
  | succ f =>
    cases tl with
    | nil => exact absurd rfl hne
    | cons tk ts =>
      simp only [parse_arrayC] at h
      split at h
      · split at h
        · cases h
        · cases h
          rfl
      · cases h
        rfl

theorem parse_objectC_fail_cell (f : ℕ) (tl : List TokenT) (cell c : Cell) (hne : tl ≠ [])
    (h : parse_objectC f tl cell = (none, c)) : c = some tl := by
  cases f with
  | zero =>
    cases tl with
    | nil => exact absurd rfl hne
    | cons tk ts =>
      cases h
      rfl
  | succ f =>
    cases tl with
    | nil => exact absurd rfl hne
    | cons tk ts =>
      simp only [parse_objectC] at h
      split at h
      · split at h
        · cases h
        · cases h
          rfl
      · cases h
        rfl

theorem parse_elementsC_fail_cell (f : ℕ) (tl : List TokenT) (cell c : Cell) (hne : tl ≠ [])
    (h : parse_elementsC f tl cell = (none, c)) : c = some tl := by
  cases f with
  | zero =>
    cases tl with
    | nil => exact absurd rfl hne
    | cons tk ts =>
      cases h
      rfl
  | succ f =>
    cases tl with
    | nil => exact absurd rfl hne
    | cons tk ts =>
      simp only [parse_elementsC] at h
      split at h
      · cases h
        rfl
      · split at h
        · cases h
          rfl
        · cases h

theorem parse_membersC_fail_cell (f : ℕ) (tl : List TokenT) (cell c : Cell) (hne : tl ≠ [])
    (h : parse_membersC f tl cell = (none, c)) : c = some tl := by
  cases f with
  | zero =>
    cases tl with
    | nil => exact absurd rfl hne
    | cons tk ts =>
      cases h
      rfl
  | succ f =>
    cases tl with
    | nil => exact absurd rfl hne
    | cons tk ts =>
      simp only [parse_membersC] at h
      split at h
      · cases h
        rfl
      · split at h
        · cases h
          rfl
        · cases h

theorem parse_pairC_fail_cell (f : ℕ) (tl : List TokenT) (cell c : Cell) (hne : tl ≠ [])
    (h : parse_pairC f tl cell = (none, c)) : c = some tl := by
  cases f with
  | zero =>
    cases tl with
    | nil => exact absurd rfl hne
    | cons tk ts =>
      cases h
      rfl
  | succ f =>
    cases tl with
    | nil => exact absurd rfl hne
    | cons tk ts =>
      cases tk with
      | string s =>
        simp only [parse_pairC] at h
        split at h
        · split at h
          · cases h
            rfl
          · cases h
        · cases h
          rfl
      | bracketArrayOpen => cases h; rfl
      | bracketArrayClose => cases h; rfl
      | bracketObjectOpen => cases h; rfl
      | bracketObjectClose => cases h; rfl
      | punctuatorColon => cases h; rfl
      | punctuatorComma => cases h; rfl
      | number v => cases h; rfl
      | kwTrue => cases h; rfl
      | kwFalse => cases h; rfl
      | kwNull => cases h; rfl

theorem parse_valueC_fail_cell (f : ℕ) (tl : List TokenT) (cell c : Cell) (hne : tl ≠ [])
    (h : parse_valueC f tl cell = (none, c)) : c = some tl := by
  cases f with
  | zero =>
    cases tl with
    | nil => exact absurd rfl hne
    | cons tk ts =>
      cases h
      rfl
  | succ f =>
    simp only [parse_valueC] at h
    split at h
    · cases h
    · rename_i c1 heq1
      have hc1 : c1 = some tl := parse_objectC_fail_cell f tl cell c1 hne heq1
      subst hc1
      split at h
      · cases h
      · rename_i c2 heq2
        have hc2 : c2 = some tl := parse_arrayC_fail_cell f tl (some tl) c2 hne heq2
        subst hc2
        split at h
        · cases h
        · rename_i c3 heq3
          have hc3 : c3 = some tl := parse_trueC_fail_cell tl (some tl) c3 heq3
          subst hc3
          split at h
          · cases h
          · rename_i c4 heq4
            have hc4 : c4 = some tl := parse_falseC_fail_cell tl (some tl) c4 heq4
            subst hc4
            split at h
            · cases h
            · rename_i c5 heq5
              have hc5 : c5 = some tl := parse_nullC_fail_cell tl (some tl) c5 heq5
              subst hc5
              split at h
              · cases h
              · rename_i c6 heq6
                have hc6 : c6 = some tl := parse_stringC_fail_cell tl (some tl) c6 heq6
                subst hc6
                exact parse_numberC_fail_cell tl (some tl) c h

theorem parse_json_fail_cursor (tl : List TokenT) (r : List TokenT)
    (h : parse_json tl = (none, r)) : r = tl := by
  cases tl with
  | nil =>
    cases h
    rfl
  | cons tk ts =>
    simp only [parse_json] at h
    split at h
    · cases h
    · rename_i e1 heq1
      split at h
      · cases h
      · rename_i e2 heq2
        have he2 : e2 = some (tk :: ts) :=
          parse_objectC_fail_cell _ (tk :: ts) e1 e2 (by simp) heq2
        subst he2
        cases h
        rfl

/-! ## Claim C5 -/

/-- C5 counterexample: the claim quantifies over *every* grammar rule
function, but the leaf rules write the out-parameter only on success; a
failing `parse_string` leaves whatever the caller's cell already held, which
need not be the cursor the attempt started at. -/
theorem c5_counterexample :
    parse_stringC [TokenT.number 1] (some [TokenT.kwTrue]) =
        (none, some [TokenT.kwTrue]) ∧
      (some [TokenT.kwTrue] : Cell) ≠ some [TokenT.number 1] :=
  ⟨rfl, by decide⟩

/-- C5 (amended): the composite rule functions (`parse_array`,
`parse_object`, `parse_elements`, `parse_members`, `parse_pair`,
`parse_value`, `parse_json`) write the entry cursor into the out-cell as soon
as the cursor is non-`NULL` and leave exactly that value there on every
failure path, so a failed attempt hands back the cursor at the start of the
attempt; the leaf rules (`parse_string`, `parse_number`, `parse_true`,
`parse_false`, `parse_null`) write the out-cell only on success and leave it
untouched on failure.  In particular, parsing the token stream of `[1,2,`
as `array` fails and the out-cell holds the start-of-attempt cursor. -/
theorem c5_amended :
    (∀ f tl cell c, tl ≠ [] → parse_arrayC f tl cell = (none, c) → c = some tl) ∧
    (∀ f tl cell c, tl ≠ [] → parse_objectC f tl cell = (none, c) → c = some tl) ∧
    (∀ f tl cell c, tl ≠ [] → parse_elementsC f tl cell = (none, c) → c = some tl) ∧
    (∀ f tl cell c, tl ≠ [] → parse_membersC f tl cell = (none, c) → c = some tl) ∧
    (∀ f tl cell c, tl ≠ [] → parse_pairC f tl cell = (none, c) → c = some tl) ∧
    (∀ f tl cell c, tl ≠ [] → parse_valueC f tl cell = (none, c) → c = some tl) ∧
    (∀ tl cell c, parse_stringC tl cell = (none, c) → c = cell) ∧
    (∀ tl cell c, parse_numberC tl cell = (none, c) → c = cell) ∧
    (∀ tl cell c, parse_trueC tl cell = (none, c) → c = cell) ∧
    (∀ tl cell c, parse_falseC tl cell = (none, c) → c = cell) ∧
    (∀ tl cell c, parse_nullC tl cell = (none, c) → c = cell) ∧
    (∀ tl r, parse_json tl = (none, r) → r = tl) ∧
    parse_arrayC 6
        [TokenT.bracketArrayOpen, TokenT.number 1, TokenT.punctuatorComma,
          TokenT.number 2, TokenT.punctuatorComma]
        (some [TokenT.bracketArrayOpen, TokenT.number 1, TokenT.punctuatorComma,
          TokenT.number 2, TokenT.punctuatorComma]) =
      (none, some [TokenT.bracketArrayOpen, TokenT.number 1, TokenT.punctuatorComma,
        TokenT.number 2, TokenT.punctuatorComma]) :=
  ⟨fun f tl cell c => parse_arrayC_fail_cell f tl cell c,
   fun f tl cell c => parse_objectC_fail_cell f tl cell c,
   fun f tl cell c => parse_elementsC_fail_cell f tl cell c,
   fun f tl cell c => parse_membersC_fail_cell f tl cell c,
   fun f tl cell c => parse_pairC_fail_cell f tl cell c,
   fun f tl cell c => parse_valueC_fail_cell f tl cell c,
   parse_stringC_fail_cell, parse_numberC_fail_cell, parse_trueC_fail_cell,
   parse_falseC_fail_cell, parse_nullC_fail_cell, parse_json_fail_cursor, rfl⟩

/-- Witness for `c5_amended` at the spec's `[1,2,` stream. -/
theorem c5_witness :
    (some [TokenT.bracketArrayOpen, TokenT.number 1, TokenT.punctuatorComma,
        TokenT.number 2, TokenT.punctuatorComma] : Cell) =
      some [TokenT.bracketArrayOpen, TokenT.number 1, TokenT.punctuatorComma,
        TokenT.number 2, TokenT.punctuatorComma] :=
  c5_amended.1 6
    [TokenT.bracketArrayOpen, TokenT.number 1, TokenT.punctuatorComma,
      TokenT.number 2, TokenT.punctuatorComma]
    (some [TokenT.bracketArrayOpen, TokenT.number 1, TokenT.punctuatorComma,
      TokenT.number 2, TokenT.punctuatorComma])
    (some [TokenT.bracketArrayOpen, TokenT.number 1, TokenT.punctuatorComma,
      TokenT.number 2, TokenT.punctuatorComma])
    (by decide) rfl

/-! ## Claim C7: shape invariant of parser output -/

theorem goodTree_array_eq (cs : List SyntaxTree) :
    goodTree (SyntaxTree.array cs) = goodValueList cs := by
  simp [goodTree]

theorem goodTree_object_eq (cs : List SyntaxTree) :
    goodTree (SyntaxTree.object cs) = goodPairList cs := by
  simp [goodTree]

theorem goodTree_pair_eq (k : String) (v : SyntaxTree) :
    goodTree (SyntaxTree.pair [SyntaxTree.string k, v]) = (isValueNode v && goodTree v) := by
  simp [goodTree]

theorem goodValueList_append (xs ys : List SyntaxTree) :
    goodValueList (xs ++ ys) = (goodValueList xs && goodValueList ys) := by
  induction xs with
  | nil => simp [goodValueList]
  | cons x xs ih => simp [goodValueList, ih, Bool.and_assoc]

theorem goodPairList_append (xs ys : List SyntaxTree) :
    goodPairList (xs ++ ys) = (goodPairList xs && goodPairList ys) := by
  induction xs with
  | nil => simp [goodPairList]
  | cons x xs ih => simp [goodPairList, ih, Bool.and_assoc]

/-- Joint shape invariant of every rule of the fuelled parser family: every
tree a rule hands to its caller is well-formed, the `Elements`/`Members`
wrappers occur only as the immediate result of `parse_elements` /
`parse_members` (with well-formed children, ready for re-parenting), and the
loops preserve well-formedness of the accumulated child list. -/
theorem parse_good (f : ℕ) :
    (∀ tl cell st c, parse_valueC f tl cell = (some st, c) →
      goodTree st = true ∧ isValueNode st = true) ∧
    (∀ tl cell st c, parse_arrayC f tl cell = (some st, c) →
      goodTree st = true ∧ isValueNode st = true) ∧
    (∀ tl cell st c, parse_objectC f tl cell = (some st, c) →
      goodTree st = true ∧ isValueNode st = true) ∧
    (∀ tl cell st c, parse_pairC f tl cell = (some st, c) →
      (match st with | SyntaxTree.pair _ => true | _ => false) = true ∧ goodTree st = true) ∧
    (∀ tl cell st c, parse_elementsC f tl cell = (some st, c) →
      ∃ cs, st = SyntaxTree.elements cs ∧ goodValueList cs = true) ∧
    (∀ tl cell st c, parse_membersC f tl cell = (some st, c) →
      ∃ cs, st = SyntaxTree.members cs ∧ goodPairList cs = true) ∧
    (∀ acc t e cs e2, elemLoopC f acc t e = some (cs, e2) →
      goodValueList acc = true → goodValueList cs = true) ∧
    (∀ acc t e cs e2, memLoopC f acc t e = some (cs, e2) →
      goodPairList acc = true → goodPairList cs = true) := by
  induction f with
  | zero =>
    refine ⟨?_, ?_, ?_, ?_, ?_, ?_, ?_, ?_⟩
    · intro tl cell st c h
      cases h
    · intro tl cell st c h
      cases h
    · intro tl cell st c h
      cases h
    · intro tl cell st c h
      cases h
    · intro tl cell st c h
      cases h
    · intro tl cell st c h
      cases h
    · intro acc t e cs e2 h
      cases h
    · intro acc t e cs e2 h
      cases h
  | succ f ih =>
    obtain ⟨ihv, iha, iho, ihp, ihe, ihm, ihel, ihml⟩ := ih
    have harr : ∀ tl cell st c, parse_arrayC (f + 1) tl cell = (some st, c) →
        goodTree st = true ∧ isValueNode st = true := by
      intro tl cell st c h
      cases tl with
      | nil => cases h
      | cons tk ts =>
        simp only [parse_arrayC] at h
        split at h
        · rcases hel : parse_elementsC f ts none with ⟨elres, e⟩
          rw [hel] at h
          split at h
          · cases h
            cases elres with
            | none => exact ⟨rfl, rfl⟩
            | some el =>
              obtain ⟨cs, rfl, hgood⟩ := ihe ts none el e hel
              refine ⟨?_, rfl⟩
              rw [goodTree_array_eq]
              exact hgood
          · cases h
        · cases h
    have hobj : ∀ tl cell st c, parse_objectC (f + 1) tl cell = (some st, c) →
        goodTree st = true ∧ isValueNode st = true := by
      intro tl cell st c h
      cases tl with
      | nil => cases h
      | cons tk ts =>
        simp only [parse_objectC] at h
        split at h
        · rcases hml : parse_membersC f ts none with ⟨mres, e⟩
          rw [hml] at h
          split at h
          · cases h
            cases mres with
            | none => exact ⟨rfl, rfl⟩
            | some m =>
              obtain ⟨cs, rfl, hgood⟩ := ihm ts none m e hml
              refine ⟨?_, rfl⟩
              rw [goodTree_object_eq]
              exact hgood
          · cases h
        · cases h
    have hval : ∀ tl cell st c, parse_valueC (f + 1) tl cell = (some st, c) →
        goodTree st = true ∧ isValueNode st = true := by
      intro tl cell st c h
      simp only [parse_valueC] at h
      split at h
      · rename_i st0 c1 heq
        cases h
        exact iho tl cell st c heq
      · split at h
        · rename_i st0 c2 heq
          cases h
          exact iha tl _ st c heq
        · split at h
          · rename_i st0 c3 heq
            cases h
            unfold parse_trueC at heq
            split at heq
            · cases heq
              exact ⟨rfl, rfl⟩
            · cases heq
          · split at h
            · rename_i st0 c4 heq
              cases h
              unfold parse_falseC at heq
              split at heq
              · cases heq
                exact ⟨rfl, rfl⟩
              · cases heq
            · split at h
              · rename_i st0 c5 heq
                cases h
                unfold parse_nullC at heq
                split at heq
                · cases heq
                  exact ⟨rfl, rfl⟩
                · cases heq
              · split at h
                · rename_i st0 c6 heq
                  cases h
                  unfold parse_stringC at heq
                  split at heq
                  · cases heq
                    exact ⟨rfl, rfl⟩
                  · cases heq
                · unfold parse_numberC at h
                  split at h
                  · cases h
                    exact ⟨rfl, rfl⟩
                  · cases h
    have hpair : ∀ tl cell st c, parse_pairC (f + 1) tl cell = (some st, c) →
        (match st with | SyntaxTree.pair _ => true | _ => false) = true ∧
          goodTree st = true := by
      intro tl cell st c h
      cases tl with
      | nil => cases h
      | cons tk ts =>
        cases tk with
        | string s =>
          simp only [parse_pairC] at h
          split at h
          · rename_i rest2
            split at h
            · cases h
            · rename_i v e heq
              cases h
              obtain ⟨hgv, hvv⟩ := ihv rest2 none v e heq
              refine ⟨rfl, ?_⟩
              rw [goodTree_pair_eq]
              simp [hgv, hvv]
          · cases h
        | bracketArrayOpen => cases h
        | bracketArrayClose => cases h
        | bracketObjectOpen => cases h
        | bracketObjectClose => cases h
        | punctuatorColon => cases h
        | punctuatorComma => cases h
        | number v => cases h
        | kwTrue => cases h
        | kwFalse => cases h
        | kwNull => cases h
    have hloopE : ∀ acc t e cs e2, elemLoopC (f + 1) acc t e = some (cs, e2) →
        goodValueList acc = true → goodValueList cs = true := by
      intro acc t e cs e2 h hacc
      simp only [elemLoopC] at h
      split at h
      · rename_i t2
        split at h
        · cases h
        · rename_i v e3 heq
          obtain ⟨hgv, hvv⟩ := ihv t2 e v e3 heq
          refine ihel _ _ _ _ _ h ?_
          rw [goodValueList_append]
          simp [hacc, goodValueList, hgv, hvv]
      · cases h
        exact hacc
    have hloopM : ∀ acc t e cs e2, memLoopC (f + 1) acc t e = some (cs, e2) →
        goodPairList acc = true → goodPairList cs = true := by
      intro acc t e cs e2 h hacc
      simp only [memLoopC] at h
      split at h
      · rename_i t2
        split at h
        · cases h
        · rename_i p e3 heq
          obtain ⟨hpp, hgp⟩ := ihp t2 e p e3 heq
          refine ihml _ _ _ _ _ h ?_
          rw [goodPairList_append]
          simp [hacc, goodPairList, hpp, hgp]
      · cases h
        exact hacc
    have helems : ∀ tl cell st c, parse_elementsC (f + 1) tl cell = (some st, c) →
        ∃ cs, st = SyntaxTree.elements cs ∧ goodValueList cs = true := by
      intro tl cell st c h
      cases tl with
      | nil => cases h
      | cons tk ts =>
        simp only [parse_elementsC] at h
        split at h
        · cases h
        · rename_i v e0 heq
          split at h
          · cases h
          · rename_i r heq2
            cases h
            obtain ⟨hgv, hvv⟩ := ihv _ none v e0 heq
            refine ⟨r.1, rfl, ?_⟩
            rcases r with ⟨cs1, e1⟩
            refine ihel [v] _ e0 cs1 e1 heq2 ?_
            simp [goodValueList, hgv, hvv]
    have hmembs : ∀ tl cell st c, parse_membersC (f + 1) tl cell = (some st, c) →
        ∃ cs, st = SyntaxTree.members cs ∧ goodPairList cs = true := by
      intro tl cell st c h
      cases tl with
      | nil => cases h
      | cons tk ts =>
        simp only [parse_membersC] at h
        split at h
        · cases h
        · rename_i p e0 heq
          split at h
          · cases h
          · rename_i r heq2
            cases h
            obtain ⟨hpp, hgp⟩ := ihp _ none p e0 heq
            refine ⟨r.1, rfl, ?_⟩
            rcases r with ⟨cs1, e1⟩
            refine ihml [p] _ e0 cs1 e1 heq2 ?_
            simp [goodPairList, hpp, hgp]
    exact ⟨hval, harr, hobj, hpair, helems, hmembs, hloopE, hloopM⟩

/-- C7: every syntax tree `parse_json` returns is well-formed: it contains no
`Elements`/`Members` wrapper node anywhere, every `Pair` node in it has
exactly two children — a `String` key followed by a value node — and every
child of an `Object` node is a `Pair`. -/
theorem c7_parse_json_shape (tl : List TokenT) (st : SyntaxTree) (rest : List TokenT)
    (h : parse_json tl = (some st, rest)) : goodTree st = true := by
  cases tl with
  | nil => cases h
  | cons tk ts =>
    simp only [parse_json] at h
    split at h
    · rename_i s e heq
      cases h
      exact ((parse_good (2 * (tk :: ts).length + 2)).2.1 _ _ _ _ heq).1
    · split at h
      · rename_i s e heq
        cases h
        exact ((parse_good (2 * (tk :: ts).length + 2)).2.2.1 _ _ _ _ heq).1
      · cases h

/-- Witness for `c7_parse_json_shape` at the stream of `[]`. -/
theorem c7_witness : goodTree (SyntaxTree.array []) = true :=
  c7_parse_json_shape [TokenT.bracketArrayOpen, TokenT.bracketArrayClose]
    (SyntaxTree.array []) [] rfl

/-! ## Claim C4: evaluation lemmas -/

theorem parse_objectC_not_open (f : ℕ) (tk : TokenT) (ts : List TokenT) (cell : Cell)
    (h : tk ≠ TokenT.bracketObjectOpen) :
    parse_objectC f (tk :: ts) cell = (none, some (tk :: ts)) := by
  cases f with
  | zero => rfl
  | succ f => simp only [parse_objectC, if_neg h]

theorem parse_arrayC_not_open (f : ℕ) (tk : TokenT) (ts : List TokenT) (cell : Cell)
    (h : tk ≠ TokenT.bracketArrayOpen) :
    parse_arrayC f (tk :: ts) cell = (none, some (tk :: ts)) := by
  cases f with
  | zero => rfl
  | succ f => simp only [parse_arrayC, if_neg h]

theorem parse_valueC_arrClose_fail (f : ℕ) (l : List TokenT) (cell : Cell) :
    parse_valueC f (TokenT.bracketArrayClose :: l) cell =
      (none, some (TokenT.bracketArrayClose :: l)) := by
  cases f with
  | zero => rfl
  | succ f =>
    simp only [parse_valueC,
      parse_objectC_not_open f TokenT.bracketArrayClose l cell (by decide),
      parse_arrayC_not_open f TokenT.bracketArrayClose l _ (by decide)]
    rfl

theorem parse_valueC_objClose_fail (f : ℕ) (l : List TokenT) (cell : Cell) :
    parse_valueC f (TokenT.bracketObjectClose :: l) cell =
      (none, some (TokenT.bracketObjectClose :: l)) := by
  cases f with
  | zero => rfl
  | succ f =>
    simp only [parse_valueC,
      parse_objectC_not_open f TokenT.bracketObjectClose l cell (by decide),
      parse_arrayC_not_open f TokenT.bracketObjectClose l _ (by decide)]
    rfl

theorem parse_pairC_objClose_fail (f : ℕ) (l : List TokenT) (cell : Cell) :
    parse_pairC f (TokenT.bracketObjectClose :: l) cell =
      (none, some (TokenT.bracketObjectClose :: l)) := by
  cases f with
  | zero => rfl
  | succ f => rfl

theorem parse_elementsC_arrClose_fail (f : ℕ) (l : List TokenT) (cell : Cell) :
    parse_elementsC f (TokenT.bracketArrayClose :: l) cell =
      (none, some (TokenT.bracketArrayClose :: l)) := by
  cases f with
  | zero => rfl
  | succ f =>
    simp only [parse_elementsC, parse_valueC_arrClose_fail f l none]

theorem parse_membersC_objClose_fail (f : ℕ) (l : List TokenT) (cell : Cell) :
    parse_membersC f (TokenT.bracketObjectClose :: l) cell =
      (none, some (TokenT.bracketObjectClose :: l)) := by
  cases f with
  | zero => rfl
  | succ f =>
    simp only [parse_membersC, parse_pairC_objClose_fail f l none]

/-- Every stream generated by a non-tail nonterminal is nonempty. -/
theorem G_ne_nil (r : Rule) (ts : List TokenT) (h : G r ts)
    (hr : r ≠ Rule.etail ∧ r ≠ Rule.mtail) : ts ≠ [] := by
  induction h with
  | value_object _ ih => exact ih ⟨by simp, by simp⟩
  | value_array _ ih => exact ih ⟨by simp, by simp⟩
  | value_string s => simp
  | value_number q => simp
  | value_true => simp
  | value_false => simp
  | value_null => simp
  | object_empty => simp
  | object_members _ _ => simp
  | array_empty => simp
  | array_elements _ _ => simp
  | members_mk hp _ ihp _ =>
    have := ihp ⟨by simp, by simp⟩
    simp [this]
  | elements_mk hv _ ihv _ =>
    have := ihv ⟨by simp, by simp⟩
    simp [this]
  | pair_mk s _ _ => simp
  | mtail_nil => exact absurd rfl hr.2
  | mtail_cons _ _ _ _ => simp
  | etail_nil => exact absurd rfl hr.1
  | etail_cons _ _ _ _ => simp

theorem G_array_head (ts : List TokenT) (h : G Rule.array ts) :
    ∃ ts2, ts = TokenT.bracketArrayOpen :: ts2 := by
  cases h with
  | array_empty => exact ⟨_, rfl⟩
  | array_elements _ => exact ⟨_, rfl⟩

theorem G_object_head (ts : List TokenT) (h : G Rule.object ts) :
    ∃ ts2, ts = TokenT.bracketObjectOpen :: ts2 := by
  cases h with
  | object_empty => exact ⟨_, rfl⟩
  | object_members _ => exact ⟨_, rfl⟩

theorem parse_objectC_open_step (f : ℕ) (ts : List TokenT) (cell : Cell) :
    parse_objectC (f + 1) (TokenT.bracketObjectOpen :: ts) cell =
      (match parse_membersC f ts none with
       | (members, e) =>
         match readCellD e with
         | TokenT.bracketObjectClose :: t2 =>
           (some (SyntaxTree.object (match members with
             | some m => m.children
             | none => [])), some t2)
         | _ => (none, some (TokenT.bracketObjectOpen :: ts))) := rfl

theorem parse_arrayC_open_step (f : ℕ) (ts : List TokenT) (cell : Cell) :
    parse_arrayC (f + 1) (TokenT.bracketArrayOpen :: ts) cell =
      (match parse_elementsC f ts none with
       | (elements, e) =>
         match readCellD e with
         | TokenT.bracketArrayClose :: t2 =>
           (some (SyntaxTree.array (match elements with
             | some el => el.children
             | none => [])), some t2)
         | _ => (none, some (TokenT.bracketArrayOpen :: ts))) := rfl

theorem parse_elementsC_cons_step (f : ℕ) (tk : TokenT) (l : List TokenT) (cell : Cell) :
    parse_elementsC (f + 1) (tk :: l) cell =
      (match parse_valueC f (tk :: l) none with
       | (none, _) => (none, some (tk :: l))
       | (some v, e0) =>
         match elemLoopC f [v] (readCellD e0) e0 with
         | none => (none, some (tk :: l))
         | some r => (some (SyntaxTree.elements r.1), some (readCellD r.2))) := rfl

theorem parse_membersC_cons_step (f : ℕ) (tk : TokenT) (l : List TokenT) (cell : Cell) :
    parse_membersC (f + 1) (tk :: l) cell =
      (match parse_pairC f (tk :: l) none with
       | (none, _) => (none, some (tk :: l))
       | (some p, e0) =>
         match memLoopC f [p] (readCellD e0) e0 with
         | none => (none, some (tk :: l))
         | some r => (some (SyntaxTree.members r.1), some (readCellD r.2))) := rfl

theorem parse_pairC_string_colon_step (f : ℕ) (s : String) (l : List TokenT) (cell : Cell) :
    parse_pairC (f + 1) (TokenT.string s :: TokenT.punctuatorColon :: l) cell =
      (match parse_valueC f l none with
       | (none, _) =>
         (none, some (TokenT.string s :: TokenT.punctuatorColon :: l))
       | (some value, e) =>
         (some (SyntaxTree.pair [SyntaxTree.string s, value]), some (readCellD e))) := rfl

theorem elemLoopC_comma_step (f : ℕ) (acc : List SyntaxTree) (t2 : List TokenT) (e : Cell) :
    elemLoopC (f + 1) acc (TokenT.punctuatorComma :: t2) e =
      (match parse_valueC f t2 e with
       | (none, _) => none
       | (some v, e2) => elemLoopC f (acc ++ [v]) (readCellD e2) e2) := rfl

theorem memLoopC_comma_step (f : ℕ) (acc : List SyntaxTree) (t2 : List TokenT) (e : Cell) :
    memLoopC (f + 1) acc (TokenT.punctuatorComma :: t2) e =
      (match parse_pairC f t2 e with
       | (none, _) => none
       | (some p, e2) => memLoopC f (acc ++ [p]) (readCellD e2) e2) := rfl

theorem elemLoopC_exit (f : ℕ) (acc : List SyntaxTree) (t : List TokenT) (e : Cell)
    (h : t.head? ≠ some TokenT.punctuatorComma) :
    elemLoopC (f + 1) acc t e = some (acc, e) := by
  cases t with
  | nil => rfl
  | cons r rr =>
    cases r <;> first
      | rfl
      | (exfalso; simp at h)

theorem memLoopC_exit (f : ℕ) (acc : List SyntaxTree) (t : List TokenT) (e : Cell)
    (h : t.head? ≠ some TokenT.punctuatorComma) :
    memLoopC (f + 1) acc t e = some (acc, e) := by
  cases t with
  | nil => rfl
  | cons r rr =>
    cases r <;> first
      | rfl
      | (exfalso; simp at h)

/-- Every rule function accepts every stream its nonterminal generates,
consuming exactly that stream (proof by induction on the derivation, with
the fuel bounds of `ParserOK`). -/
theorem G_parse (r : Rule) (ts : List TokenT) (h : G r ts) : ParserOK r ts := by
  induction h with
  | value_object hsub ih =>
    rename_i ts0
    intro f hf rest cell
    have hne : ts0 ≠ [] := G_ne_nil _ _ hsub ⟨by simp, by simp⟩
    have hlen : 1 ≤ ts0.length := by
      cases ts0 with
      | nil => exact absurd rfl hne
      | cons a l => simp
    obtain ⟨g, rfl⟩ : ∃ g, f = g + 1 := ⟨f - 1, by omega⟩
    obtain ⟨t, ht⟩ := ih g (by omega) rest cell
    refine ⟨t, ?_⟩
    simp only [parse_valueC, ht]
  | value_array hsub ih =>
    rename_i ts0
    intro f hf rest cell
    obtain ⟨ts2, rfl⟩ := G_array_head _ hsub
    have hlen : (TokenT.bracketArrayOpen :: ts2).length = ts2.length + 1 := by simp
    rw [hlen] at hf
    obtain ⟨g, rfl⟩ : ∃ g, f = g + 1 := ⟨f - 1, by omega⟩
    obtain ⟨t, ht⟩ := ih g (by simp; omega) rest
      (some (TokenT.bracketArrayOpen :: (ts2 ++ rest)))
    simp only [List.cons_append] at ht
    refine ⟨t, ?_⟩
    simp only [List.cons_append, parse_valueC,
      parse_objectC_not_open g TokenT.bracketArrayOpen (ts2 ++ rest) cell (by decide), ht]
  | value_string s =>
    intro f hf rest cell
    obtain ⟨g, rfl⟩ : ∃ g, f = g + 1 := ⟨f - 1, by simp at hf; omega⟩
    refine ⟨SyntaxTree.string s, ?_⟩
    simp only [List.cons_append, List.nil_append, parse_valueC,
      parse_objectC_not_open g (TokenT.string s) rest cell (by simp),
      parse_arrayC_not_open g (TokenT.string s) rest _ (by simp)]
    rfl
  | value_number q =>
    intro f hf rest cell
    obtain ⟨g, rfl⟩ : ∃ g, f = g + 1 := ⟨f - 1, by simp at hf; omega⟩
    refine ⟨SyntaxTree.number q, ?_⟩
    simp only [List.cons_append, List.nil_append, parse_valueC,
      parse_objectC_not_open g (TokenT.number q) rest cell (by simp),
      parse_arrayC_not_open g (TokenT.number q) rest _ (by simp)]
    rfl
  | value_true =>
    intro f hf rest cell
    obtain ⟨g, rfl⟩ : ∃ g, f = g + 1 := ⟨f - 1, by simp at hf; omega⟩
    refine ⟨SyntaxTree.strue, ?_⟩
    simp only [List.cons_append, List.nil_append, parse_valueC,
      parse_objectC_not_open g TokenT.kwTrue rest cell (by decide),
      parse_arrayC_not_open g TokenT.kwTrue rest _ (by decide)]
    rfl
  | value_false =>
    intro f hf rest cell
    obtain ⟨g, rfl⟩ : ∃ g, f = g + 1 := ⟨f - 1, by simp at hf; omega⟩
    refine ⟨SyntaxTree.sfalse, ?_⟩
    simp only [List.cons_append, List.nil_append, parse_valueC,
      parse_objectC_not_open g TokenT.kwFalse rest cell (by decide),
      parse_arrayC_not_open g TokenT.kwFalse rest _ (by decide)]
    rfl
  | value_null =>
    intro f hf rest cell
    obtain ⟨g, rfl⟩ : ∃ g, f = g + 1 := ⟨f - 1, by simp at hf; omega⟩
    refine ⟨SyntaxTree.snull, ?_⟩
    simp only [List.cons_append, List.nil_append, parse_valueC,
      parse_objectC_not_open g TokenT.kwNull rest cell (by decide),
      parse_arrayC_not_open g TokenT.kwNull rest _ (by decide)]
    rfl
  | object_empty =>
    intro f hf rest cell
    obtain ⟨g, rfl⟩ : ∃ g, f = g + 1 := ⟨f - 1, by simp at hf; omega⟩
    refine ⟨SyntaxTree.object [], ?_⟩
    simp only [List.cons_append, List.nil_append]
    rw [parse_objectC_open_step, parse_membersC_objClose_fail]
    rfl
  | object_members hsub ih =>
    rename_i mts
    intro f hf rest cell
    have hlen : (TokenT.bracketObjectOpen :: mts ++ [TokenT.bracketObjectClose]).length
        = mts.length + 2 := by simp
    rw [hlen] at hf
    obtain ⟨g, rfl⟩ : ∃ g, f = g + 1 := ⟨f - 1, by omega⟩
    obtain ⟨m, hm2⟩ := ih g (by omega) (TokenT.bracketObjectClose :: rest) none (by simp)
    refine ⟨SyntaxTree.object m.children, ?_⟩
    simp only [List.cons_append, List.append_assoc, List.singleton_append, List.nil_append]
    rw [parse_objectC_open_step, hm2]
    rfl
  | array_empty =>
    intro f hf rest cell
    obtain ⟨g, rfl⟩ : ∃ g, f = g + 1 := ⟨f - 1, by simp at hf; omega⟩
    refine ⟨SyntaxTree.array [], ?_⟩
    simp only [List.cons_append, List.nil_append]
    rw [parse_arrayC_open_step, parse_elementsC_arrClose_fail]
    rfl
  | array_elements hsub ih =>
    rename_i ets
    intro f hf rest cell
    have hlen : (TokenT.bracketArrayOpen :: ets ++ [TokenT.bracketArrayClose]).length
        = ets.length + 2 := by simp
    rw [hlen] at hf
    obtain ⟨g, rfl⟩ : ∃ g, f = g + 1 := ⟨f - 1, by omega⟩
    obtain ⟨el, hel2⟩ := ih g (by omega) (TokenT.bracketArrayClose :: rest) none (by simp)
    refine ⟨SyntaxTree.array el.children, ?_⟩
    simp only [List.cons_append, List.append_assoc, List.singleton_append, List.nil_append]
    rw [parse_arrayC_open_step, hel2]
    rfl
  | members_mk hp ht ihp iht =>
    rename_i pts tts
    intro f hf rest cell hrest
    have hpne : pts ≠ [] := G_ne_nil _ _ hp ⟨by simp, by simp⟩
    have hlen : (pts ++ tts).length = pts.length + tts.length := by simp
    rw [hlen] at hf
    obtain ⟨g, rfl⟩ : ∃ g, f = g + 1 := ⟨f - 1, by omega⟩
    obtain ⟨p, hp2⟩ := ihp g (by omega) (tts ++ rest) none
    obtain ⟨cs, hloop⟩ := iht g (by omega) rest hrest [p]
    obtain ⟨p0, pts', rfl⟩ : ∃ p0 pts', pts = p0 :: pts' := by
      cases pts with
      | nil => exact absurd rfl hpne
      | cons a l => exact ⟨a, l, rfl⟩
    simp only [List.cons_append, List.append_assoc] at hp2 ⊢
    refine ⟨SyntaxTree.members ([p] ++ cs), ?_⟩
    rw [parse_membersC_cons_step, hp2]
    simp only [readCellD]
    rw [hloop]
  | elements_mk hv ht ihv iht =>
    rename_i vts tts
    intro f hf rest cell hrest
    have hvne : vts ≠ [] := G_ne_nil _ _ hv ⟨by simp, by simp⟩
    have hlen : (vts ++ tts).length = vts.length + tts.length := by simp
    rw [hlen] at hf
    obtain ⟨g, rfl⟩ : ∃ g, f = g + 1 := ⟨f - 1, by omega⟩
    obtain ⟨v, hv2⟩ := ihv g (by omega) (tts ++ rest) none
    obtain ⟨cs, hloop⟩ := iht g (by omega) rest hrest [v]
    obtain ⟨v0, vts', rfl⟩ : ∃ v0 vts', vts = v0 :: vts' := by
      cases vts with
      | nil => exact absurd rfl hvne
      | cons a l => exact ⟨a, l, rfl⟩
    simp only [List.cons_append, List.append_assoc] at hv2 ⊢
    refine ⟨SyntaxTree.elements ([v] ++ cs), ?_⟩
    rw [parse_elementsC_cons_step, hv2]
    simp only [readCellD]
    rw [hloop]
  | pair_mk s hv ihv =>
    rename_i vts
    intro f hf rest cell
    have hlen : (TokenT.string s :: TokenT.punctuatorColon :: vts).length
        = vts.length + 2 := by simp
    rw [hlen] at hf
    obtain ⟨g, rfl⟩ : ∃ g, f = g + 1 := ⟨f - 1, by omega⟩
    obtain ⟨v, hv2⟩ := ihv g (by omega) rest none
    refine ⟨SyntaxTree.pair [SyntaxTree.string s, v], ?_⟩
    simp only [List.cons_append]
    rw [parse_pairC_string_colon_step, hv2]
    rfl
  | mtail_nil =>
    intro f hf rest hrest acc
    obtain ⟨g, rfl⟩ : ∃ g, f = g + 1 := ⟨f - 1, by omega⟩
    refine ⟨[], ?_⟩
    simp only [List.nil_append, List.append_nil]
    exact memLoopC_exit g acc rest _ hrest
  | mtail_cons hp ht ihp iht =>
    rename_i pts tts
    intro f hf rest hrest acc
    have hlen : (TokenT.punctuatorComma :: pts ++ tts).length
        = pts.length + tts.length + 1 := by simp
    rw [hlen] at hf
    obtain ⟨g, rfl⟩ : ∃ g, f = g + 1 := ⟨f - 1, by omega⟩
    obtain ⟨p, hp2⟩ := ihp g (by omega) (tts ++ rest)
      (some ((TokenT.punctuatorComma :: pts ++ tts) ++ rest))
    obtain ⟨cs, hloop⟩ := iht g (by omega) rest hrest (acc ++ [p])
    refine ⟨p :: cs, ?_⟩
    simp only [List.cons_append, List.append_assoc] at hp2 ⊢
    rw [memLoopC_comma_step, hp2]
    simp only [readCellD]
    rw [hloop]
    simp
  | etail_nil =>
    intro f hf rest hrest acc
    obtain ⟨g, rfl⟩ : ∃ g, f = g + 1 := ⟨f - 1, by omega⟩
    refine ⟨[], ?_⟩
    simp only [List.nil_append, List.append_nil]
    exact elemLoopC_exit g acc rest _ hrest
  | etail_cons hv ht ihv iht =>
    rename_i vts tts
    intro f hf rest hrest acc
    have hlen : (TokenT.punctuatorComma :: vts ++ tts).length
        = vts.length + tts.length + 1 := by simp
    rw [hlen] at hf
    obtain ⟨g, rfl⟩ : ∃ g, f = g + 1 := ⟨f - 1, by omega⟩
    obtain ⟨v, hv2⟩ := ihv g (by omega) (tts ++ rest)
      (some ((TokenT.punctuatorComma :: vts ++ tts) ++ rest))
    obtain ⟨cs, hloop⟩ := iht g (by omega) rest hrest (acc ++ [v])
    refine ⟨v :: cs, ?_⟩
    simp only [List.cons_append, List.append_assoc] at hv2 ⊢
    rw [elemLoopC_comma_step, hv2]
    simp only [readCellD]
    rw [hloop]
    simp

/-- C4: every token stream that exactly matches the grammar of §4.3 with an
array or object root is parsed successfully by `parse_json`: the returned
tree is non-absent and the unconsumed-suffix cursor is the `NULL` cursor
(the whole stream is consumed). -/
theorem c4_grammar_parse_succeeds (ts : List TokenT)
    (h : G Rule.array ts ∨ G Rule.object ts) :
    ∃ t, parse_json ts = (some t, []) := by
  rcases h with ha | ho
  · obtain ⟨ts2, heq⟩ := G_array_head _ ha
    have hok := G_parse Rule.array ts ha
    obtain ⟨t, ht⟩ := hok (2 * ts.length + 2) (by omega) [] (some ts)
    rw [List.append_nil] at ht
    refine ⟨t, ?_⟩
    subst heq
    simp only [parse_json, ht]
    rfl
  · obtain ⟨ts2, heq⟩ := G_object_head _ ho
    have hok := G_parse Rule.object ts ho
    obtain ⟨t, ht⟩ := hok (2 * ts.length + 2) (by omega) [] (some ts)
    rw [List.append_nil] at ht
    refine ⟨t, ?_⟩
    subst heq
    simp only [parse_json,
      parse_arrayC_not_open (2 * (TokenT.bracketObjectOpen :: ts2).length + 2)
        TokenT.bracketObjectOpen ts2 (some (TokenT.bracketObjectOpen :: ts2)) (by decide),
      ht]
    rfl

/-- Witness for `c4_grammar_parse_succeeds` at the stream of `[]`. -/
theorem c4_witness :
    ∃ t, parse_json [TokenT.bracketArrayOpen, TokenT.bracketArrayClose] = (some t, []) :=
  c4_grammar_parse_succeeds _ (Or.inl G.array_empty)
